import Mathlib

/-!
# Verification of the recursive-copy engine (lib/copy.js)

A shallow embedding, in Lean 4, of the copy-tree execution engine of the
recursive-copy repository: the filter pipeline (getFilteredPaths, dotFilter,
junkFilter), the operation-tree builder (createOperationTree), the bounded
concurrent scheduler (batch), the per-entry copy strategies
(ensureDestinationIsWritable, copySymlink) and the error-wrapping protocol
(CopyError wrapping and unwrapping).

Pure functions of the source are translated as Lean functions; the
asynchronous scheduler is translated as a small-step transition system on an
explicit state, whose atomic steps are exactly the promise-continuation
bodies of the source (the JavaScript event loop runs each continuation
atomically).  Filesystem primitives, the maximatch glob matcher and the junk
detector are external collaborators of the engine and enter the embedding as
explicit parameters or as small explicit models noted at their definitions.
-/

/-! ## Paths

The engine splits destination paths on the path separator
(`destPath.split(path.sep)`, createOperationTree) and takes basenames
(`path.basename`, dotFilter/junkFilter).  Paths are modelled POSIX-style with
separator slash.  To keep the split provably invertible we implement the
JavaScript `split` over the character list of the string. -/

/-- JavaScript `s.split("/")` over a character list: always returns at least
one (possibly empty) segment; a separator ends the current segment. -/
def splitSegs : List Char → List (List Char)
  | [] => [[]]
  | c :: cs =>
    if c = '/' then [] :: splitSegs cs
    else
      match splitSegs cs with
      | [] => [[c]]
      | seg :: rest => (c :: seg) :: rest

/-- Left inverse of `splitSegs`: re-join with the separator. -/
def joinSegs : List (List Char) → List Char
  | [] => []
  | [seg] => seg
  | seg :: rest => seg ++ '/' :: joinSegs rest

/-- `destPath ? destPath.split(path.sep) : []` (createOperationTree, line 136):
the empty destination yields no segments, any other destination is split on
the separator. -/
def splitDest (d : String) : List String :=
  if d = "" then [] else (splitSegs d.data).map (fun l => String.mk l)

/-- Node's `path.basename` for POSIX paths: trailing separators are dropped,
the last segment is returned; the basename of the empty string is empty and
the basename of a pure run of separators is the separator itself. -/
def basename (p : String) : String :=
  match p.data.reverse.dropWhile (fun c => c = '/') with
  | [] => if p = "" then "" else "/"
  | cs => String.mk ((cs.takeWhile (fun c => c ≠ '/')).reverse)

/-- The slash dependency: converts backslashes to forward slashes, leaving
Windows extended-length paths untouched.  Used on the relative path before it
is handed to the user filter (getFilteredPaths, line 226). -/
def slashStr (p : String) : String :=
  if ['\\', '\\', '?', '\\'].isPrefixOf p.data then p
  else String.mk (p.data.map (fun c => if c = '\\' then '/' else c))

/-- Boolean segment-list ordering: p is an initial run of q. -/
def isPreB : List String → List String → Bool
  | [], _ => true
  | _, [] => false
  | a :: as, b :: bs => a = b && isPreB as bs

/-- p is a strictly shorter initial run of q: the segment-list rendering of
"the destination path of q is nested under the destination path of p". -/
def strictPre (p q : List String) : Prop := isPreB p q = true ∧ p ≠ q

instance : DecidablePred fun pq : List String × List String => strictPre pq.1 pq.2 :=
  fun _ => by unfold strictPre; infer_instance

instance (p q : List String) : Decidable (strictPre p q) := by
  unfold strictPre; infer_instance

/-! ## The data model

A CopyOperation (the spec's data model) is a source/destination pair of
absolute paths, produced by the filter/rename pipeline and consumed by the
scheduler and the entry copier. -/

structure Operation where
  src : String
  dest : String
deriving DecidableEq, Repr

/-! ## The filter pipeline (getFilteredPaths, dotFilter, junkFilter)

lib/copy.js lines 221-238.  The OS-junk detector (the junk dependency) and
the user filter are external collaborators consumed as pure predicates over
relative-path strings, so they enter the embedding as parameters: `junkIs`
stands for `junk.is`, and the optional user filter stands for the whole
`maximatch(slash(path), filter, options).length > 0` test, which receives the
slash-normalized relative path. -/

/-- Options consumed by the filter stage (`options.dot`, `options.junk`). -/
structure FilterOptions where
  dot : Bool
  junk : Bool
deriving DecidableEq, Repr

/-- lib/copy.js lines 230-233: keep a path unless its basename starts with a
dot (JavaScript `charAt(0)` of the empty string is the empty string, which is
not equal to the dot). -/
def dotFilter (relativePath : String) : Bool :=
  match (basename relativePath).data with
  | [] => true
  | c :: _ => c ≠ '.'

/-- lib/copy.js lines 235-238: keep a path unless the junk detector flags its
basename. -/
def junkFilter (junkIs : String → Bool) (relativePath : String) : Bool :=
  !junkIs (basename relativePath)

/-- lib/copy.js lines 221-228: the filter stage.  When no dot filter, no junk
filter and no user filter apply, the path list is returned as is; otherwise a
path is kept when the dot filter (if enabled), the junk filter (if enabled)
and the user filter (if supplied, on the slash-normalized path) all pass. -/
def getFilteredPaths (paths : List String) (filter : Option (String → Bool))
    (junkIs : String → Bool) (options : FilterOptions) : List String :=
  let useDotFilter := !options.dot
  let useJunkFilter := !options.junk
  if filter.isNone && !useDotFilter && !useJunkFilter then paths
  else
    paths.filter (fun path =>
      (!useDotFilter || dotFilter path) &&
      (!useJunkFilter || junkFilter junkIs path) &&
      (match filter with
       | none => true
       | some f => f (slashStr path)))

/-! ## The maximatch user-filter combination

Modelled from the spec: the maximatch dependency is an external package (not
under src/), consumed at getFilteredPaths line 226 as
`maximatch(slash(path), filter, options).length > 0`.  Per the spec it
accumulates matches pattern by pattern with `!`-negation semantics — later
patterns can re-include or further exclude relative to earlier ones — and the
repository's own test "should combine multiple filters from arrays"
(test/spec/copy.spec.js line 839) pins this behaviour on concrete inputs:
a path matching any one positive element is kept unless a later negation
removes it.  An element of a filter array is a positive matcher (a glob, a
regular expression or a predicate function) or a `!`-negated glob; each
matcher enters the model as an abstract Boolean predicate on the subject. -/

inductive FilterElement where
  | pat (test : String → Bool)
  | negPat (test : String → Bool)

/-- The match list maximatch accumulates over the elements: a positive
element that matches appends the subject, a matching negation removes the
subject from the matches accumulated so far. -/
def maximatchRun (elements : List FilterElement) (subject : String) : List String :=
  elements.foldl
    (fun acc e =>
      match e with
      | .pat m => if m subject then acc ++ [subject] else acc
      | .negPat m => if m subject then acc.filter (fun x => x ≠ subject) else acc)
    []

/-- The acceptance test the engine applies to the maximatch result
(`.length > 0`). -/
def maximatchAccept (elements : List FilterElement) (subject : String) : Bool :=
  decide (0 < (maximatchRun elements subject).length)

/-- The claim's reading of the combination: every element of the array
independently passes the path (logical AND), a negated glob passing when it
does not match. -/
def allElementsPass (elements : List FilterElement) (subject : String) : Bool :=
  elements.all (fun e =>
    match e with
    | .pat m => m subject
    | .negPat m => !m subject)

/-- The union reading: a fold in which a matching positive element marks the
subject accepted and a matching negation clears the acceptance accumulated so
far. -/
def unionFold (elements : List FilterElement) (subject : String) : Bool :=
  elements.foldl
    (fun b e =>
      match e with
      | .pat m => b || m subject
      | .negPat m => if m subject then false else b)
    false

/-! ## The operation tree (createOperationTree, lib/copy.js lines 132-173)

createOperationTree groups the flat operation list into a tree keyed by
destination-path segments: for each operation, in list order, the
destination is split into segments and a chain of nodes is walked/created
from a synthetic root; the leaf for the final segment stores the operation
together with its original index (updateLeaf overwrites both on a revisit).
The mutable node `{index, operation, children}` is modelled as `MTree` with
the index/operation pair optional and the children an insertion-ordered
association list (JavaScript object properties iterate in insertion order
for the string keys produced here). -/

inductive MTree where
  | node (entry : Option (Nat × Operation)) (children : List (String × MTree))

/-- The executable task tree constructOperationTree returns: a stored
operation, its original index, and the child tasks released when the task's
own copy completes. -/
inductive OpTask where
  | mk (entry : Nat × Operation) (children : List OpTask)

def OpTask.entry : OpTask → Nat × Operation
  | .mk e _ => e

def OpTask.children : OpTask → List OpTask
  | .mk _ c => c

/-- `task.index` (original position in the operation list). -/
def OpTask.index (t : OpTask) : Nat := t.entry.1

/-- `task.operation` (the stored src/dest pair). -/
def OpTask.operation (t : OpTask) : Operation := t.entry.2

/-- The destination-path segments of the task's stored operation. -/
def OpTask.segs (t : OpTask) : List String := splitDest t.operation.dest

mutual

/-- The walk of `operations.forEach` lines 134-145: follow the destination's
segments from the node, creating missing children, and update the final leaf
with the operation and its index (overwriting any previous occupant). -/
def MTree.insertPath (t : MTree) (segs : List String) (e : Nat × Operation) : MTree :=
  match t, segs with
  | .node _ ch, [] => .node (some e) ch
  | .node e0 ch, s :: rest => .node e0 (insertChild ch s rest e)
termination_by (segs.length, 0)

/-- `branch.children[segment]` lookup-or-create (lines 138-142): an existing
key is followed, a missing key is appended (JavaScript object insertion
order). -/
def insertChild (ch : List (String × MTree)) (s : String) (rest : List String)
    (e : Nat × Operation) : List (String × MTree) :=
  match ch with
  | [] => [(s, MTree.insertPath (.node none []) rest e)]
  | (k, c) :: tl =>
    if k = s then (k, MTree.insertPath c rest e) :: tl
    else (k, c) :: insertChild tl s rest e
termination_by (rest.length, ch.length + 1)

end

/-- First-match association lookup among a node's children. -/
def findChild (ch : List (String × MTree)) (s : String) : Option MTree :=
  match ch with
  | [] => none
  | (k, c) :: tl => if k = s then some c else findChild tl s

/-- The entry stored at a segment path of the tree (a specification-side
observer of the mutable node structure). -/
def MTree.lookupPath (t : MTree) (p : List String) : Option (Nat × Operation) :=
  match t, p with
  | .node e _, [] => e
  | .node _ ch, s :: rest =>
    match findChild ch s with
    | some c => c.lookupPath rest
    | none => none

/-- `operations.forEach(function(operation, index))`: the list tagged with
positions starting at the given index. -/
def enumFrom : Nat → List Operation → List (Nat × Operation)
  | _, [] => []
  | i, op :: tl => (i, op) :: enumFrom (i + 1) tl

/-- The fully-inserted root (lines 133-145 before constructOperationTree). -/
def buildRoot (operations : List Operation) : MTree :=
  (enumFrom 0 operations).foldl
    (fun root e => root.insertPath (splitDest e.2.dest) e)
    (.node none [])

mutual

/-- constructOperationTree (lines 162-172): a node holding an operation
becomes a single task whose children are the tasks of its subtrees; a node
holding none contributes its subtrees' tasks directly. -/
def constructTree (t : MTree) : List OpTask :=
  match t with
  | .node e ch =>
    match e with
    | some x => [.mk x (constructForest ch)]
    | none => constructForest ch

/-- The `for (var key in root.children)` loop of constructOperationTree:
children in insertion order, concatenating each child's task list. -/
def constructForest (ch : List (String × MTree)) : List OpTask :=
  match ch with
  | [] => []
  | (_, c) :: tl => constructTree c ++ constructForest tl

end

/-- `createOperationTree(operations)`: build the destination-keyed tree and
flatten it to the top-level task list handed to the scheduler. -/
def createOperationTree (operations : List Operation) : List OpTask :=
  constructTree (buildRoot operations)

mutual

/-- Every task of a task tree: the task itself followed by its descendants. -/
def flatTask (t : OpTask) : List OpTask :=
  match t with
  | .mk e cs => .mk e cs :: flatForest cs

/-- Every task of a task forest. -/
def flatForest (ts : List OpTask) : List OpTask :=
  match ts with
  | [] => []
  | t :: tl => flatTask t ++ flatForest tl

end

mutual

/-- The index/operation entries stored in a tree, in pre-order. -/
def entriesOfTree (t : MTree) : List (Nat × Operation) :=
  match t with
  | .node e ch => e.toList ++ entriesOfForest ch

/-- The entries stored in a forest of children. -/
def entriesOfForest (ch : List (String × MTree)) : List (Nat × Operation) :=
  match ch with
  | [] => []
  | (_, c) :: tl => entriesOfTree c ++ entriesOfForest tl

end

mutual

/-- Well-formedness the builder maintains: the child keys of every node are
distinct (insertChild appends a key only when it is absent). -/
def WFtree (t : MTree) : Prop :=
  match t with
  | .node _ ch => (ch.map Prod.fst).Nodup ∧ WFforest ch

def WFforest (ch : List (String × MTree)) : Prop :=
  match ch with
  | [] => True
  | (_, c) :: tl => WFtree c ∧ WFforest tl

end

/-- Entry/path injectivity: the same stored entry is not reachable at two
distinct segment paths (true of every tree the builder produces, because an
entry determines its destination path). -/
def NEtree (t : MTree) : Prop :=
  ∀ p q x, t.lookupPath p = some x → t.lookupPath q = some x → p = q

/-! ## The bounded concurrent scheduler (batch, lib/copy.js lines 175-205)

batch keeps a mutable queue `remaining` (seeded from the inputs), a counter
`activeWorkers`, and an optional `results` array.  It is asynchronous but
cooperative: every promise continuation runs atomically on the event loop,
so the execution is a sequence of atomic steps on an explicit state.

The state records, besides the source's three variables, the ghost
completion order (`completed`), the set of in-flight tasks behind the
counter (`active`), and the workers whose copy rejected (`failedTasks`):
a rejected worker runs `.catch(reject)` only, so it neither decrements the
counter nor enqueues its children.

Two details of the source matter below and are mirrored exactly:

* the seeding loop line 181 runs `i = 0 .. Math.min(inputs.length - 1,
  options.concurrency)` inclusive, hence starts
  `min(inputs.length, concurrency + 1)` workers;
* the `while` condition of enqueue (line 200) compares the `remaining`
  array itself with 0, which is false for every array of task objects, so
  enqueue only appends the released children; replacement workers start
  exclusively in a completing worker's continuation (lines 190-191). -/

structure BatchState where
  remaining : List OpTask
  active : List OpTask
  activeWorkers : Nat
  completed : List OpTask
  resultsAcc : Option (List (Nat × Operation))
  failedTasks : List OpTask

/-- The executor's synchronous prologue (lines 176-183): `results` is an
array only when enabled, the queue holds the inputs and the seeding loop
moves the first `min(inputs.length, concurrency + 1)` of them to workers
(when the input list is empty the promise resolves at once with the initial
state unchanged, line 177). -/
def batchInit (inputs : List OpTask) (resultsEnabled : Bool) (concurrency : Nat) :
    BatchState :=
  let s := min inputs.length (concurrency + 1)
  { remaining := inputs.drop s
    active := inputs.take s
    activeWorkers := s
    completed := []
    resultsAcc := if resultsEnabled then some [] else none
    failedTasks := [] }

/-- One worker's success continuation, atomically (lines 80-83 of the
iteratee and 187-194 of batch): enqueue the task's children, decrement the
counter, push `{index, value}` onto the results, and if the queue is
non-empty shift its head and start a replacement worker. -/
def completeWorker (s : BatchState) (i : Nat) : BatchState :=
  match s.active[i]? with
  | none => s
  | some w =>
    let rem1 := s.remaining ++ w.children
    let counter1 := s.activeWorkers - 1
    let acc1 := s.resultsAcc.map (fun rs => rs ++ [(w.index, w.operation)])
    let act0 := s.active.eraseIdx i
    match rem1 with
    | [] =>
      { remaining := []
        active := act0
        activeWorkers := counter1
        completed := s.completed ++ [w]
        resultsAcc := acc1
        failedTasks := s.failedTasks }
    | t :: ts =>
      { remaining := ts
        active := act0 ++ [t]
        activeWorkers := counter1 + 1
        completed := s.completed ++ [w]
        resultsAcc := acc1
        failedTasks := s.failedTasks }

/-- One worker's failure, atomically (line 195): `.catch(reject)` rejects the
batch promise without touching the counter, the queue or the results; the
worker is simply gone. -/
def failWorker (s : BatchState) (i : Nat) : BatchState :=
  match s.active[i]? with
  | none => s
  | some w =>
    { s with
      active := s.active.eraseIdx i
      failedTasks := s.failedTasks ++ [w] }

/-- The scheduler's atomic steps: some in-flight worker settles, successfully
or not — the event loop fixes no completion order, so the step relation is
nondeterministic. -/
inductive BatchStep : BatchState → BatchState → Prop where
  | complete (s : BatchState) (i : Nat) (h : i < s.active.length) :
      BatchStep s (completeWorker s i)
  | fail (s : BatchState) (i : Nat) (h : i < s.active.length) :
      BatchStep s (failWorker s i)

/-- States an execution of the scheduler can pass through. -/
inductive BatchReachable (init : BatchState) : BatchState → Prop where
  | refl : BatchReachable init init
  | step {s t : BatchState} :
      BatchReachable init s → BatchStep s t → BatchReachable init t

/-- JavaScript member access on `undefined` raises a TypeError. -/
inductive JsTypeError where
  | typeError
deriving DecidableEq, Repr

/-- The post-processing of the batch result (module.exports, lines 88-92):
`results.sort(function(a, b) { return a.index - b.index; }).map(...)`.  When
batch resolved with an array it is sorted by original index and the values
are extracted; when batch resolved with `undefined` (results disabled), the
`.sort` access raises a TypeError which rejects the returned promise. -/
def finalizeResults (results : Option (List (Nat × Operation))) :
    Except JsTypeError (List Operation) :=
  match results with
  | none => .error .typeError
  | some rs => .ok ((rs.mergeSort (fun a b => decide (a.1 ≤ b.1))).map Prod.snd)

/-! ## The entry copier: destination-writability check and fsError
(lib/copy.js lines 295-330 and 448-456)

prepareForCopy stats the source and then checks the destination with
ensureDestinationIsWritable: the destination is lstat-ed (an ENOENT becomes
`null`, any other lstat error propagates); an absent destination is
writable; an existing destination is writable when source and destination
are both directories (merge); otherwise with `overwrite` the destination is
removed recursively (`del(destPath, {force: true})`) and the copy proceeds,
and without `overwrite` an EEXIST error carrying the destination path is
thrown.  The stat snapshot enters the embedding as the two kind predicates
the engine consults. -/

structure Stats where
  isDir : Bool
  isSymlink : Bool
deriving DecidableEq, Repr

/-- A node-style filesystem error as fsError builds it (lines 448-456) from
the errno table of the errno dependency: `message` is
`code + ", " + description + " " + path`, and `code`/`path` are set on the
error object. -/
structure FsErrorE where
  code : String
  message : String
  path : String
deriving DecidableEq, Repr

/-- The two rows of the errno table the engine uses. -/
def errnoDescription (code : String) : String :=
  if code = "EEXIST" then "file already exists"
  else if code = "ENOENT" then "no such file or directory"
  else ""

/-- fsError (lines 448-456). -/
def fsError (code : String) (path : String) : FsErrorE :=
  { code := code
    message := code ++ ", " ++ errnoDescription code ++ " " ++ path
    path := path }

/-- What ensureDestinationIsWritable does to the destination: proceed with
the destination untouched, proceed after recursively deleting it, or throw. -/
inductive WritableOutcome where
  | proceedUntouched
  | proceedAfterDelete (deletedPath : String)
  | failed (e : FsErrorE)
deriving DecidableEq, Repr

/-- ensureDestinationIsWritable (lines 307-330).  `destStats` is the lstat
result, `none` when the destination is absent (the ENOENT case line 310). -/
def ensureDestinationIsWritable (destPath : String) (srcStats : Stats)
    (destStats : Option Stats) (shouldOverwriteExistingFiles : Bool) :
    WritableOutcome :=
  match destStats with
  | none => .proceedUntouched
  | some destStats =>
    if srcStats.isDir && destStats.isDir then .proceedUntouched
    else if shouldOverwriteExistingFiles then .proceedAfterDelete destPath
    else .failed (fsError "EEXIST" destPath)

/-! ## The symlink copy strategy (copySymlink, lib/copy.js lines 432-437)

`readlink(srcPath).then(link => symlink(link, destPath))`: the target string
read from the source link is passed to symlink verbatim.  The filesystem
enters the embedding as a finite map from paths to entries; readlink and
symlink carry node's contracts (readlink of a non-link fails EINVAL, of an
absent path ENOENT; symlink at an occupied path fails EEXIST). -/

inductive FsEntry where
  | file (content : String)
  | dir
  | symlinkTo (target : String)
deriving DecidableEq, Repr

def FileSystem := List (String × FsEntry)

def lookupFS (fs : FileSystem) (p : String) : Option FsEntry :=
  match fs with
  | [] => none
  | (k, e) :: tl => if k = p then some e else lookupFS tl p

def readlinkFS (fs : FileSystem) (p : String) : Except FsErrorE String :=
  match lookupFS fs p with
  | some (.symlinkTo t) => .ok t
  | some _ => .error (fsError "EINVAL" p)
  | none => .error (fsError "ENOENT" p)

def symlinkFS (fs : FileSystem) (target dest : String) : Except FsErrorE FileSystem :=
  match lookupFS fs dest with
  | some _ => .error (fsError "EEXIST" dest)
  | none => .ok ((dest, .symlinkTo target) :: fs)

/-- copySymlink (lines 432-437). -/
def copySymlink (fs : FileSystem) (srcPath destPath : String) :
    Except FsErrorE FileSystem :=
  (readlinkFS fs srcPath).bind (fun link => symlinkFS fs link destPath)

/-! ## Error wrapping and unwrapping (lib/copy.js lines 94-102 and 277-288)

copy() wraps any entry-level failure that is not already a CopyError in a
CopyError carrying the original error and `{src, dest}` (lines 277-288); a
CopyError passes through unchanged, so the original error is wrapped exactly
once.  The top-level catch (lines 94-102) checks `error instanceof
CopyError`: if so it emits the `error` event with the unwrapped original
error and the metadata and rethrows the unwrapped original error; any other
error is rethrown as is.  The underlying error is modelled with an identity
tag so "the same error object" is expressible. -/

/-- An underlying error raised by a filesystem primitive or a transform
stream: `ident` models JavaScript object identity. -/
structure BaseErr where
  message : String
  ident : Nat
deriving DecidableEq, Repr

/-- The `{src, dest}` metadata a CopyError carries. -/
structure ErrData where
  src : String
  dest : String
deriving DecidableEq, Repr

/-- A thrown JavaScript value on the engine's error paths: either a plain
error or the internal CopyError wrapper. -/
inductive JsThrown where
  | plain (e : BaseErr)
  | copyErr (error : BaseErr) (data : ErrData)
deriving DecidableEq, Repr

/-- The catch of copy() (lines 277-288): rethrow a CopyError unchanged,
wrap anything else with the entry's src/dest. -/
def copyWrapCatch (srcPath destPath : String) : JsThrown → JsThrown
  | .copyErr e d => .copyErr e d
  | .plain e => .copyErr e ⟨srcPath, destPath⟩

/-- batch surfaces a worker's rejection unchanged (line 195,
`.catch(reject)`). -/
def batchRejectPassThrough (e : JsThrown) : JsThrown := e

/-- The top-level catch (lines 94-102): what it emits on the `error` event
(if anything) and what it rethrows to the public surface (promise rejection,
or the callback's error argument via lines 117-123, which pass it through
unchanged). -/
def topLevelCatch : JsThrown → Option (BaseErr × ErrData) × JsThrown
  | .copyErr e d => (some (e, d), .plain e)
  | .plain e => (none, .plain e)

/-! ## Specification-side observers

Definitions used only to state and prove properties of the embedding
(ghost/observer functions, not part of the source). -/

/-- The rightmost entry of an indexed operation list whose destination
splits to the given segments: the occupant updateLeaf leaves at that leaf. -/
def lastEntryFor (l : List (Nat × Operation)) (p : List String) :
    Option (Nat × Operation) :=
  match l with
  | [] => none
  | e :: tl =>
    match lastEntryFor tl p with
    | some r => some r
    | none => if splitDest e.2.dest = p then some e else none

/-- A task the scheduler has released: it sits in the queue, is in flight,
has completed, or has failed. -/
def Released (s : BatchState) (t : OpTask) : Prop :=
  t ∈ s.remaining ∨ t ∈ s.active ∨ t ∈ s.completed ∨ t ∈ s.failedTasks

/-- A task the scheduler has dispatched (a worker was started for it). -/
def Dispatched (s : BatchState) (t : OpTask) : Prop :=
  t ∈ s.active ∨ t ∈ s.completed ∨ t ∈ s.failedTasks

/-- The scheduler's resolution condition (lines 190-194): the queue is empty
and no workers remain in flight, so `resolve(results)` has fired. -/
def Resolved (s : BatchState) : Prop :=
  s.remaining = [] ∧ s.activeWorkers = 0
/-- The inductive invariant of one batch execution, relative to the input
forest and the results flag:
(i) the counter equals in-flight plus failed workers;
(ii) the accumulated results are exactly the completed tasks' index/value
pairs in completion order, when results are enabled, and nothing otherwise;
(iii) conservation: the tasks of the input forest are, as a multiset, the
completed tasks plus the whole subtrees of the in-flight, queued and failed
tasks;
(iv) the release rule: a released task is a top-level input or a child of a
completed task;
(v) ancestors first: every task of the forest whose destination segments are
a strict ancestor of a released task's segments has already completed. -/
def SchedInv (inputs : List OpTask) (resultsEnabled : Bool) (s : BatchState) : Prop :=
  (s.activeWorkers = s.active.length + s.failedTasks.length) ∧
  (s.resultsAcc = if resultsEnabled then
      some (s.completed.map (fun t => (t.index, t.operation))) else none) ∧
  (flatForest inputs).Perm
    (s.completed ++ flatForest s.active ++ flatForest s.remaining ++
      flatForest s.failedTasks) ∧
  (∀ t, Released s t → t ∈ inputs ∨ ∃ p, p ∈ s.completed ∧ t ∈ p.children) ∧
  (∀ B, Released s B → ∀ A, A ∈ flatForest inputs →
      strictPre A.segs B.segs → A ∈ s.completed)

/-- The filter array of the repository's test "should combine multiple
filters from arrays" (test/spec/copy.spec.js line 839): the glob '1/**/*',
its negation '!1/1-1/**/*', a regular expression matching the paths under
2/ except 2-1/, and a predicate accepting exactly "a"; each matcher is
rendered as the Boolean test it performs on a relative path. -/
def c7Elements : List FilterElement :=
  [.pat (fun p => ['1', '/'].isPrefixOf p.data),
   .negPat (fun p => ['1', '/', '1', '-', '1', '/'].isPrefixOf p.data),
   .pat (fun p => ['2', '/'].isPrefixOf p.data &&
     !(['2', '/', '2', '-', '1', '/'].isPrefixOf p.data)),
   .pat (fun p => p == "a")]

/-! ### Basic facts about the path functions -/

theorem splitSegs_ne_nil (cs : List Char) : splitSegs cs ≠ [] := by
  cases cs with
  | nil => simp [splitSegs]
  | cons c cs =>
    simp only [splitSegs]
    split
    · simp
    · split <;> simp

theorem joinSegs_splitSegs (cs : List Char) : joinSegs (splitSegs cs) = cs := by
  induction cs with
  | nil => rfl
  | cons c cs ih =>
    simp only [splitSegs]
    split
    · rename_i hc
      cases hs : splitSegs cs with
      | nil => exact absurd hs (splitSegs_ne_nil cs)
      | cons seg rest =>
        rw [hs] at ih
        simp only [joinSegs, List.nil_append]
        rw [ih, hc]
    · rename_i hc
      cases hs : splitSegs cs with
      | nil => exact absurd hs (splitSegs_ne_nil cs)
      | cons seg rest =>
        rw [hs] at ih
        cases rest with
        | nil =>
          simp only [joinSegs] at ih ⊢
          rw [ih]
        | cons r rs =>
          simp only [joinSegs, List.cons_append] at ih ⊢
          rw [ih]

theorem splitSegs_injective {cs ds : List Char} (h : splitSegs cs = splitSegs ds) :
    cs = ds := by
  have h2 := joinSegs_splitSegs cs
  rw [h, joinSegs_splitSegs] at h2
  exact h2.symm

theorem stringMk_injective : Function.Injective (fun l : List Char => String.mk l) := by
  intro a b hab
  simpa using congrArg String.data hab

theorem splitDest_injective {d e : String} (h : splitDest d = splitDest e) : d = e := by
  unfold splitDest at h
  by_cases hd : d = "" <;> by_cases he : e = "" <;> simp [hd, he] at h ⊢
  · exact absurd h (splitSegs_ne_nil e.data)
  · exact absurd h (splitSegs_ne_nil d.data)
  · exact String.ext (splitSegs_injective (List.map_injective_iff.2 stringMk_injective h))


/-! ### The built tree's lookup function (createOperationTree, build phase)

The fundamental fact about the insertion loop: the entry stored at a segment
path is the rightmost operation of the list whose destination splits to that
path — updateLeaf overwrites, so the last write wins. -/

theorem lookupPath_emptyLeaf (p : List String) :
    (MTree.node none []).lookupPath p = none := by
  cases p <;> simp [MTree.lookupPath, findChild]

theorem findChild_insertChild (ch : List (String × MTree)) (s : String)
    (rest : List String) (e : Nat × Operation) (k : String) :
    findChild (insertChild ch s rest e) k =
      if k = s then
        some ((match findChild ch s with
               | some c => c
               | none => MTree.node none []).insertPath rest e)
      else findChild ch k := by
  induction ch with
  | nil =>
    simp only [insertChild, findChild]
    by_cases h : k = s
    · subst h; simp
    · simp [h, Ne.symm h]
  | cons hd tl ih =>
    obtain ⟨k0, c0⟩ := hd
    by_cases h0 : k0 = s
    · subst h0
      by_cases h : k = k0
      · subst h; simp [insertChild, findChild]
      · simp [insertChild, findChild, h, Ne.symm h]
    · by_cases h : k = s
      · subst h
        simp [insertChild, findChild, h0, ih]
      · simp [insertChild, findChild, h0, h, ih]

theorem lookupPath_insertPath (q : List String) (t : MTree) (e : Nat × Operation)
    (p : List String) :
    (t.insertPath q e).lookupPath p = if p = q then some e else t.lookupPath p := by
  induction q generalizing t p with
  | nil =>
    obtain ⟨e0, ch⟩ := t
    cases p with
    | nil => simp [MTree.insertPath, MTree.lookupPath]
    | cons k prest => simp [MTree.insertPath, MTree.lookupPath]
  | cons s qrest ih =>
    obtain ⟨e0, ch⟩ := t
    cases p with
    | nil => simp [MTree.insertPath, MTree.lookupPath]
    | cons k prest =>
      simp only [MTree.insertPath, MTree.lookupPath, findChild_insertChild]
      by_cases hk : k = s
      · subst hk
        simp only [if_pos rfl]
        cases hfc : findChild ch k with
        | none =>
          by_cases hp : prest = qrest
          · simp [hp, ih]
          · simp [hp, ih, lookupPath_emptyLeaf, List.cons.injEq]
        | some c =>
          by_cases hp : prest = qrest
          · simp [hp, ih]
          · simp [hp, ih, List.cons.injEq]
      · have hne : ¬(k :: prest = s :: qrest) := by simp [hk]
        simp only [if_neg hk, if_neg hne]

theorem lookupPath_foldl_insert (l : List (Nat × Operation)) (t : MTree)
    (p : List String) :
    (l.foldl (fun acc e => acc.insertPath (splitDest e.2.dest) e) t).lookupPath p =
      match lastEntryFor l p with
      | some r => some r
      | none => t.lookupPath p := by
  induction l generalizing t with
  | nil => simp [lastEntryFor]
  | cons e tl ih =>
    simp only [List.foldl_cons, ih, lastEntryFor]
    cases lastEntryFor tl p with
    | some r => simp
    | none =>
      simp only [lookupPath_insertPath]
      by_cases hp : p = splitDest e.2.dest
      · simp [hp]
      · simp [hp, if_neg (fun hh : splitDest e.2.dest = p => hp hh.symm)]

theorem lookupPath_buildRoot (ops : List Operation) (p : List String) :
    (buildRoot ops).lookupPath p = lastEntryFor (enumFrom 0 ops) p := by
  unfold buildRoot
  rw [lookupPath_foldl_insert]
  cases lastEntryFor (enumFrom 0 ops) p with
  | some r => simp
  | none => simp [lookupPath_emptyLeaf]

theorem lastEntryFor_segs (l : List (Nat × Operation)) (p : List String)
    (r : Nat × Operation) (h : lastEntryFor l p = some r) :
    splitDest r.2.dest = p ∧ r ∈ l := by
  induction l with
  | nil => simp [lastEntryFor] at h
  | cons e tl ih =>
    simp only [lastEntryFor] at h
    cases hrec : lastEntryFor tl p with
    | some r0 =>
      rw [hrec] at h
      obtain rfl := Option.some.inj h
      obtain ⟨h1, h2⟩ := ih hrec
      exact ⟨h1, List.mem_cons_of_mem _ h2⟩
    | none =>
      rw [hrec] at h
      by_cases hs : splitDest e.2.dest = p
      · rw [if_pos hs] at h
        obtain rfl := Option.some.inj h
        exact ⟨hs, List.mem_cons_self _ _⟩
      · rw [if_neg hs] at h; cases h

theorem lastEntryFor_eq_none (l : List (Nat × Operation)) (p : List String) :
    lastEntryFor l p = none ↔ ∀ e ∈ l, splitDest e.2.dest ≠ p := by
  induction l with
  | nil => simp [lastEntryFor]
  | cons e tl ih =>
    simp only [lastEntryFor]
    cases hrec : lastEntryFor tl p with
    | some r =>
      simp only [List.mem_cons]
      constructor
      · intro h; cases h
      · intro h
        obtain ⟨h1, h2⟩ := lastEntryFor_segs tl p r hrec
        exact absurd h1 (h r (Or.inr h2))
    | none =>
      rw [ih] at hrec
      by_cases hs : splitDest e.2.dest = p
      · simp only [if_pos hs]
        constructor
        · intro h; cases h
        · intro h; exact absurd hs (h e (List.mem_cons_self _ _))
      · simp only [if_neg hs]
        constructor
        · intro _ x hx
          rcases List.mem_cons.mp hx with rfl | hx2
          · exact hs
          · exact hrec x hx2
        · intro _; trivial

theorem mem_enumFrom (ops : List Operation) (j i : Nat) (o : Operation) :
    (i, o) ∈ enumFrom j ops ↔ j ≤ i ∧ ops[i - j]? = some o := by
  induction ops generalizing j with
  | nil => simp [enumFrom]
  | cons op tl ih =>
    simp only [enumFrom, List.mem_cons, Prod.mk.injEq, ih]
    constructor
    · rintro (⟨rfl, rfl⟩ | ⟨h1, h2⟩)
      · simp
      · refine ⟨by omega, ?_⟩
        have hh : i - j = (i - (j + 1)) + 1 := by omega
        rw [hh]
        simpa using h2
    · rintro ⟨h1, h2⟩
      by_cases hij : i = j
      · subst hij
        simp only [Nat.sub_self, List.getElem?_cons_zero] at h2
        exact Or.inl ⟨rfl, (Option.some.inj h2).symm⟩
      · right
        refine ⟨by omega, ?_⟩
        have hh : i - j = (i - (j + 1)) + 1 := by omega
        rw [hh] at h2
        simpa using h2

theorem lastEntryFor_enumFrom (ops : List Operation) (j : Nat) (p : List String)
    (i : Nat) (o : Operation) :
    lastEntryFor (enumFrom j ops) p = some (i, o) ↔
      (j ≤ i ∧ ops[i - j]? = some o ∧ splitDest o.dest = p ∧
        ∀ o2 ∈ ops.drop (i - j + 1), splitDest o2.dest ≠ p) := by
  induction ops generalizing j i o with
  | nil => simp [enumFrom, lastEntryFor]
  | cons op tl ih =>
    simp only [enumFrom, lastEntryFor]
    cases hrec : lastEntryFor (enumFrom (j + 1) tl) p with
    | some r =>
      obtain ⟨i0, o0⟩ := r
      have hred : (match (some (i0, o0) : Option (Nat × Operation)) with
          | some r => some r
          | none => if splitDest op.dest = p then some (j, op) else none) =
          some (i0, o0) := rfl
      rw [hred]
      obtain ⟨hb1, hb2, hb3, hb4⟩ := (ih (j + 1) i0 o0).mp hrec
      constructor
      · intro h
        have h6 : (i0, o0) = (i, o) := Option.some.inj h
        have hi : i0 = i := congrArg Prod.fst h6
        have ho : o0 = o := congrArg Prod.snd h6
        refine ⟨by omega, ?_, by rw [← ho]; exact hb3, ?_⟩
        · rw [← hi, ← ho]
          have hh : i0 - j = (i0 - (j + 1)) + 1 := by omega
          rw [hh]
          simpa using hb2
        · rw [← hi]
          have hh2 : i0 - j + 1 = (i0 - (j + 1) + 1) + 1 := by omega
          rw [hh2, List.drop_succ_cons]
          exact hb4
      · rintro ⟨h1, h2, h3, h4⟩
        by_cases hij : i = j
        · exfalso
          have ho0 : o0 ∈ tl := List.getElem?_mem hb2
          have hz : i - j + 1 = 1 := by omega
          rw [hz] at h4
          simp only [List.drop_succ_cons, List.drop_zero] at h4
          exact h4 o0 ho0 hb3
        · have hgt : j + 1 ≤ i := by omega
          have hh : i - j = (i - (j + 1)) + 1 := by omega
          rw [hh] at h2
          simp only [List.getElem?_cons_succ] at h2
          have hh2 : i - j + 1 = (i - (j + 1) + 1) + 1 := by omega
          rw [hh2, List.drop_succ_cons] at h4
          have h5 := (ih (j + 1) i o).mpr ⟨hgt, h2, h3, h4⟩
          rw [h5] at hrec
          have h6 : (i, o) = (i0, o0) := Option.some.inj hrec
          rw [h6]
    | none =>
      have hred : (match (none : Option (Nat × Operation)) with
          | some r => some r
          | none => if splitDest op.dest = p then some (j, op) else none) =
          (if splitDest op.dest = p then some (j, op) else none) := rfl
      rw [hred]
      have hnone : ∀ o2 ∈ tl, splitDest o2.dest ≠ p := by
        intro o2 ho2
        obtain ⟨k, hk⟩ := List.mem_iff_getElem?.mp ho2
        have hmem : (j + 1 + k, o2) ∈ enumFrom (j + 1) tl := by
          rw [mem_enumFrom]
          refine ⟨by omega, ?_⟩
          have hh : j + 1 + k - (j + 1) = k := by omega
          rw [hh]; exact hk
        exact (lastEntryFor_eq_none _ _).mp hrec (j + 1 + k, o2) hmem
      by_cases hs : splitDest op.dest = p
      · rw [if_pos hs]
        constructor
        · intro h
          have h6 : (j, op) = (i, o) := Option.some.inj h
          have hi : j = i := congrArg Prod.fst h6
          have ho : op = o := congrArg Prod.snd h6
          refine ⟨by omega, ?_, by rw [← ho]; exact hs, ?_⟩
          · have hz : i - j = 0 := by omega
            rw [hz, List.getElem?_cons_zero, ho]
          · have hz : i - j + 1 = 1 := by omega
            rw [hz]
            simpa using hnone
        · rintro ⟨h1, h2, h3, h4⟩
          by_cases hij : i = j
          · have hz : i - j = 0 := by omega
            rw [hz, List.getElem?_cons_zero] at h2
            rw [Option.some.inj h2, hij]
          · exfalso
            have hh : i - j = (i - (j + 1)) + 1 := by omega
            rw [hh] at h2
            simp only [List.getElem?_cons_succ] at h2
            exact hnone o (List.getElem?_mem h2) h3
      · rw [if_neg hs]
        constructor
        · intro h; cases h
        · rintro ⟨h1, h2, h3, h4⟩
          exfalso
          by_cases hij : i = j
          · have hz : i - j = 0 := by omega
            rw [hz, List.getElem?_cons_zero] at h2
            exact hs ((Option.some.inj h2) ▸ h3)
          · have hh : i - j = (i - (j + 1)) + 1 := by omega
            rw [hh] at h2
            simp only [List.getElem?_cons_succ] at h2
            exact hnone o (List.getElem?_mem h2) h3

theorem lookupPath_buildRoot_some {ops : List Operation} {p : List String}
    {i : Nat} {o : Operation}
    (h : (buildRoot ops).lookupPath p = some (i, o)) :
    splitDest o.dest = p ∧ ops[i]? = some o ∧
      ∀ o2 ∈ ops.drop (i + 1), splitDest o2.dest ≠ p := by
  rw [lookupPath_buildRoot] at h
  obtain ⟨h1, h2, h3, h4⟩ := (lastEntryFor_enumFrom ops 0 p i o).mp h
  simp only [Nat.sub_zero] at h2 h4
  exact ⟨h3, h2, h4⟩

theorem NEtree_buildRoot (ops : List Operation) : NEtree (buildRoot ops) := by
  intro p q x h1 h2
  obtain ⟨x1, x2⟩ := x
  have a1 := (lookupPath_buildRoot_some h1).1
  have a2 := (lookupPath_buildRoot_some h2).1
  rw [← a1, ← a2]

/-! ### Well-formedness of the built tree -/

theorem keys_insertChild (ch : List (String × MTree)) (s : String)
    (rest : List String) (e : Nat × Operation) :
    (insertChild ch s rest e).map Prod.fst =
      if s ∈ ch.map Prod.fst then ch.map Prod.fst else ch.map Prod.fst ++ [s] := by
  induction ch with
  | nil => simp [insertChild]
  | cons hd tl ih =>
    obtain ⟨k0, c0⟩ := hd
    by_cases h0 : k0 = s
    · subst h0
      simp [insertChild]
    · simp only [insertChild, if_neg h0, List.map_cons, List.mem_cons, ih]
      by_cases hmem : s ∈ tl.map Prod.fst
      · simp [hmem, Ne.symm h0]
      · simp [hmem, Ne.symm h0]

theorem nodupKeys_insertChild {ch : List (String × MTree)} {s : String}
    {rest : List String} {e : Nat × Operation}
    (h : (ch.map Prod.fst).Nodup) :
    ((insertChild ch s rest e).map Prod.fst).Nodup := by
  rw [keys_insertChild]
  by_cases hmem : s ∈ ch.map Prod.fst
  · rwa [if_pos hmem]
  · rw [if_neg hmem]
    simp [List.nodup_append, h, hmem]

theorem insertPath_nil (e0 : Option (Nat × Operation)) (ch : List (String × MTree))
    (e : Nat × Operation) :
    (MTree.node e0 ch).insertPath [] e = .node (some e) ch := by
  simp [MTree.insertPath]

theorem insertPath_cons (e0 : Option (Nat × Operation)) (ch : List (String × MTree))
    (s : String) (rest : List String) (e : Nat × Operation) :
    (MTree.node e0 ch).insertPath (s :: rest) e = .node e0 (insertChild ch s rest e) := by
  simp [MTree.insertPath]

theorem WFtree_node (e0 : Option (Nat × Operation)) (ch : List (String × MTree)) :
    WFtree (.node e0 ch) ↔ (ch.map Prod.fst).Nodup ∧ WFforest ch := by
  simp [WFtree]

theorem WFforest_nil : WFforest [] := by
  simp [WFforest]

theorem WFforest_cons (k : String) (c : MTree) (tl : List (String × MTree)) :
    WFforest ((k, c) :: tl) ↔ WFtree c ∧ WFforest tl := by
  simp [WFforest]

mutual

theorem WFtree_insertPath (q : List String) (t : MTree) (e : Nat × Operation)
    (h : WFtree t) : WFtree (t.insertPath q e) := by
  match t, q with
  | .node e0 ch, [] =>
    rw [insertPath_nil]
    rw [WFtree_node] at h ⊢
    exact h
  | .node e0 ch, s :: rest =>
    rw [insertPath_cons, WFtree_node]
    rw [WFtree_node] at h
    obtain ⟨h1, h2⟩ := h
    exact ⟨nodupKeys_insertChild h1, WFforest_insertChild rest ch s e h2⟩

theorem WFforest_insertChild (rest : List String) (ch : List (String × MTree))
    (s : String) (e : Nat × Operation) (h : WFforest ch) :
    WFforest (insertChild ch s rest e) := by
  match ch with
  | [] =>
    rw [show insertChild [] s rest e = [(s, (MTree.node none []).insertPath rest e)]
      from by simp [insertChild]]
    rw [WFforest_cons]
    refine ⟨WFtree_insertPath rest (.node none []) e ?_, WFforest_nil⟩
    rw [WFtree_node]
    exact ⟨List.nodup_nil, WFforest_nil⟩
  | (k0, c0) :: tl =>
    rw [WFforest_cons] at h
    obtain ⟨h1, h2⟩ := h
    by_cases h0 : k0 = s
    · rw [show insertChild ((k0, c0) :: tl) s rest e = (k0, c0.insertPath rest e) :: tl
        from by simp [insertChild, h0]]
      rw [WFforest_cons]
      exact ⟨WFtree_insertPath rest c0 e h1, h2⟩
    · rw [show insertChild ((k0, c0) :: tl) s rest e = (k0, c0) :: insertChild tl s rest e
        from by simp [insertChild, h0]]
      rw [WFforest_cons]
      exact ⟨h1, WFforest_insertChild rest tl s e h2⟩

end

theorem WFtree_foldl_insert (l : List (Nat × Operation)) (t : MTree)
    (h : WFtree t) :
    WFtree (l.foldl (fun acc e => acc.insertPath (splitDest e.2.dest) e) t) := by
  induction l generalizing t with
  | nil => exact h
  | cons e tl ih => exact ih _ (WFtree_insertPath _ _ _ h)

theorem WFtree_buildRoot (ops : List Operation) : WFtree (buildRoot ops) :=
  WFtree_foldl_insert _ _ ((WFtree_node none []).mpr ⟨List.nodup_nil, WFforest_nil⟩)

/-! ### findChild and child membership -/

theorem findChild_mem {ch : List (String × MTree)} {s : String} {c : MTree}
    (h : findChild ch s = some c) : (s, c) ∈ ch := by
  induction ch with
  | nil => simp [findChild] at h
  | cons hd tl ih =>
    obtain ⟨k0, c0⟩ := hd
    by_cases h0 : k0 = s
    · subst h0
      rw [findChild, if_pos rfl] at h
      rw [Option.some.inj h]
      exact List.mem_cons_self _ _
    · rw [findChild, if_neg h0] at h
      exact List.mem_cons_of_mem _ (ih h)

theorem findChild_none_of_not_mem {ch : List (String × MTree)} {s : String}
    (h : s ∉ ch.map Prod.fst) : findChild ch s = none := by
  induction ch with
  | nil => rfl
  | cons hd tl ih =>
    obtain ⟨k0, c0⟩ := hd
    simp only [List.map_cons, List.mem_cons] at h
    push_neg at h
    rw [findChild, if_neg (fun hh : k0 = s => h.1 hh.symm)]
    exact ih h.2

theorem mem_findChild {ch : List (String × MTree)} {s : String} {c : MTree}
    (hnd : (ch.map Prod.fst).Nodup) (h : (s, c) ∈ ch) :
    findChild ch s = some c := by
  induction ch with
  | nil => simp at h
  | cons hd tl ih =>
    obtain ⟨k0, c0⟩ := hd
    simp only [List.map_cons, List.nodup_cons] at hnd
    rcases List.mem_cons.mp h with heq | hmem
    · obtain ⟨rfl, rfl⟩ : k0 = s ∧ c0 = c := by
        constructor
        · exact (congrArg Prod.fst heq).symm
        · exact (congrArg Prod.snd heq).symm
      rw [findChild, if_pos rfl]
    · have hks : k0 ≠ s := by
        intro hh
        subst hh
        exact hnd.1 (List.mem_map_of_mem Prod.fst hmem)
      rw [findChild, if_neg hks]
      exact ih hnd.2 hmem

theorem WFforest_mem {ch : List (String × MTree)} {s : String} {c : MTree}
    (h : WFforest ch) (hm : (s, c) ∈ ch) : WFtree c := by
  induction ch with
  | nil => simp at hm
  | cons hd tl ih =>
    obtain ⟨k0, c0⟩ := hd
    obtain ⟨h1, h2⟩ := (WFforest_cons k0 c0 tl).mp h
    rcases List.mem_cons.mp hm with heq | hmem
    · have hc : c = c0 := congrArg Prod.snd heq
      rw [hc]; exact h1
    · exact ih h2 hmem

theorem lookupPath_cons (e0 : Option (Nat × Operation)) (ch : List (String × MTree))
    (s : String) (p : List String) :
    (MTree.node e0 ch).lookupPath (s :: p) =
      match findChild ch s with
      | some c => c.lookupPath p
      | none => none := rfl

theorem NEtree_child {e0 : Option (Nat × Operation)} {ch : List (String × MTree)}
    {s : String} {c : MTree}
    (hne : NEtree (.node e0 ch)) (hnd : (ch.map Prod.fst).Nodup)
    (hm : (s, c) ∈ ch) : NEtree c := by
  intro p q x h1 h2
  have hf : findChild ch s = some c := mem_findChild hnd hm
  have l1 : (MTree.node e0 ch).lookupPath (s :: p) = some x := by
    rw [lookupPath_cons, hf]; exact h1
  have l2 : (MTree.node e0 ch).lookupPath (s :: q) = some x := by
    rw [lookupPath_cons, hf]; exact h2
  have := hne _ _ _ l1 l2
  injection this

/-! ### Entries of the tree and their lookup paths -/

theorem entriesOfForest_of_child {ch : List (String × MTree)} {s : String}
    {c : MTree} (hm : (s, c) ∈ ch) {x : Nat × Operation}
    (hx : x ∈ entriesOfTree c) : x ∈ entriesOfForest ch := by
  induction ch with
  | nil => simp at hm
  | cons hd tl ih =>
    obtain ⟨k0, c0⟩ := hd
    rw [show entriesOfForest ((k0, c0) :: tl) = entriesOfTree c0 ++ entriesOfForest tl
      from by simp [entriesOfForest]]
    rcases List.mem_cons.mp hm with heq | hmem
    · have hc : c = c0 := congrArg Prod.snd heq
      rw [hc] at hx
      exact List.mem_append.mpr (Or.inl hx)
    · exact List.mem_append.mpr (Or.inr (ih hmem))

theorem mem_entriesOfTree_of_lookup {t : MTree} {p : List String}
    {x : Nat × Operation} (h : t.lookupPath p = some x) : x ∈ entriesOfTree t := by
  induction p generalizing t with
  | nil =>
    obtain ⟨e0, ch⟩ := t
    simp only [MTree.lookupPath] at h
    rw [show entriesOfTree (.node e0 ch) = e0.toList ++ entriesOfForest ch
      from by simp [entriesOfTree]]
    simp [h]
  | cons s rest ih =>
    obtain ⟨e0, ch⟩ := t
    rw [lookupPath_cons] at h
    cases hf : findChild ch s with
    | none => rw [hf] at h; cases h
    | some c =>
      rw [hf] at h
      rw [show entriesOfTree (.node e0 ch) = e0.toList ++ entriesOfForest ch
        from by simp [entriesOfTree]]
      exact List.mem_append.mpr (Or.inr (entriesOfForest_of_child (findChild_mem hf) (ih h)))

mutual

theorem lookup_of_mem_entriesOfTree {t : MTree} (hw : WFtree t) {x : Nat × Operation}
    (hx : x ∈ entriesOfTree t) : ∃ p, t.lookupPath p = some x := by
  match t with
  | .node e0 ch =>
    rw [WFtree_node] at hw
    rw [show entriesOfTree (.node e0 ch) = e0.toList ++ entriesOfForest ch
      from by simp [entriesOfTree]] at hx
    rcases List.mem_append.mp hx with h1 | h2
    · refine ⟨[], ?_⟩
      cases e0 with
      | none => simp at h1
      | some y =>
        simp only [Option.toList_some, List.mem_singleton] at h1
        simp [MTree.lookupPath, h1]
    · obtain ⟨s, c, p, hm, hl⟩ := lookupF_of_mem_entriesOfForest hw.2 h2
      exact ⟨s :: p, by rw [lookupPath_cons, mem_findChild hw.1 hm]; exact hl⟩

theorem lookupF_of_mem_entriesOfForest {ch : List (String × MTree)}
    (hw : WFforest ch) {x : Nat × Operation}
    (hx : x ∈ entriesOfForest ch) :
    ∃ s c p, (s, c) ∈ ch ∧ c.lookupPath p = some x := by
  match ch with
  | [] =>
    rw [show entriesOfForest ([] : List (String × MTree)) = [] from by simp [entriesOfForest]] at hx
    simp at hx
  | (k0, c0) :: tl =>
    rw [WFforest_cons] at hw
    rw [show entriesOfForest ((k0, c0) :: tl) = entriesOfTree c0 ++ entriesOfForest tl
      from by simp [entriesOfForest]] at hx
    rcases List.mem_append.mp hx with h1 | h2
    · obtain ⟨p, hp⟩ := lookup_of_mem_entriesOfTree hw.1 h1
      exact ⟨k0, c0, p, List.mem_cons_self _ _, hp⟩
    · obtain ⟨s, c, p, hm, hl⟩ := lookupF_of_mem_entriesOfForest hw.2 h2
      exact ⟨s, c, p, List.mem_cons_of_mem _ hm, hl⟩

end

theorem lookup_tail_lift {e0 : Option (Nat × Operation)} {k0 : String} {c0 : MTree}
    {tl : List (String × MTree)}
    (hnd : (((k0, c0) :: tl).map Prod.fst).Nodup)
    {p : List String} {x : Nat × Operation}
    (h : (MTree.node e0 tl).lookupPath p = some x) :
    (MTree.node e0 ((k0, c0) :: tl)).lookupPath p = some x := by
  cases p with
  | nil => exact h
  | cons s rest =>
    rw [lookupPath_cons] at h
    cases hf : findChild tl s with
    | none => rw [hf] at h; cases h
    | some c =>
      rw [hf] at h
      have hs : k0 ≠ s := by
        intro hh
        subst hh
        simp only [List.map_cons, List.nodup_cons] at hnd
        rw [findChild_none_of_not_mem hnd.1] at hf
        cases hf
      rw [lookupPath_cons, findChild, if_neg hs, hf]
      exact h

theorem NEtree_tail {e0 : Option (Nat × Operation)} {k0 : String} {c0 : MTree}
    {tl : List (String × MTree)}
    (hne : NEtree (.node e0 ((k0, c0) :: tl)))
    (hnd : (((k0, c0) :: tl).map Prod.fst).Nodup) :
    NEtree (.node e0 tl) := by
  intro p q x h1 h2
  exact hne p q x (lookup_tail_lift hnd h1) (lookup_tail_lift hnd h2)

mutual

theorem nodup_entriesOfTree (t : MTree) (hw : WFtree t) (hne : NEtree t) :
    (entriesOfTree t).Nodup := by
  match t with
  | .node e0 ch =>
    rw [WFtree_node] at hw
    rw [show entriesOfTree (.node e0 ch) = e0.toList ++ entriesOfForest ch
      from by simp [entriesOfTree]]
    rw [List.nodup_append]
    refine ⟨?_, nodup_entriesOfForest e0 ch ((WFtree_node e0 ch).mpr hw) hne, ?_⟩
    · cases e0 <;> simp
    · intro x hx1 hx2
      cases e0 with
      | none => simp at hx1
      | some y =>
        simp only [Option.toList_some, List.mem_singleton] at hx1
        obtain ⟨s, c, p, hm, hl⟩ := lookupF_of_mem_entriesOfForest hw.2 hx2
        have l1 : (MTree.node (some y) ch).lookupPath [] = some x := by
          simp [MTree.lookupPath, hx1]
        have l2 : (MTree.node (some y) ch).lookupPath (s :: p) = some x := by
          rw [lookupPath_cons, mem_findChild hw.1 hm]; exact hl
        cases hne _ _ _ l1 l2

theorem nodup_entriesOfForest (e0 : Option (Nat × Operation))
    (ch : List (String × MTree)) (hw : WFtree (.node e0 ch))
    (hne : NEtree (.node e0 ch)) : (entriesOfForest ch).Nodup := by
  match ch with
  | [] =>
    rw [show entriesOfForest ([] : List (String × MTree)) = [] from by simp [entriesOfForest]]
    exact List.nodup_nil
  | (k0, c0) :: tl =>
    rw [WFtree_node] at hw
    rw [show entriesOfForest ((k0, c0) :: tl) = entriesOfTree c0 ++ entriesOfForest tl
      from by simp [entriesOfForest]]
    have hndtl : (tl.map Prod.fst).Nodup := by
      have := hw.1
      simp only [List.map_cons, List.nodup_cons] at this
      exact this.2
    have hwtl : WFtree (.node e0 tl) := by
      rw [WFtree_node]
      exact ⟨hndtl, ((WFforest_cons k0 c0 tl).mp hw.2).2⟩
    have hnetl : NEtree (.node e0 tl) := NEtree_tail hne hw.1
    rw [List.nodup_append]
    refine ⟨?_, nodup_entriesOfForest e0 tl hwtl hnetl, ?_⟩
    · exact nodup_entriesOfTree c0 ((WFforest_cons k0 c0 tl).mp hw.2).1
        (NEtree_child hne hw.1 (List.mem_cons_self _ _))
    · intro x hx1 hx2
      obtain ⟨p, hp⟩ := lookup_of_mem_entriesOfTree ((WFforest_cons k0 c0 tl).mp hw.2).1 hx1
      obtain ⟨s, c, p2, hm, hl⟩ := lookupF_of_mem_entriesOfForest
        ((WFforest_cons k0 c0 tl).mp hw.2).2 hx2
      have hk0 : k0 ∉ tl.map Prod.fst := by
        have := hw.1
        simp only [List.map_cons, List.nodup_cons] at this
        exact this.1
      have hs : k0 ≠ s := by
        intro hh
        subst hh
        exact hk0 (List.mem_map_of_mem Prod.fst hm)
      have l1 : (MTree.node e0 ((k0, c0) :: tl)).lookupPath (k0 :: p) = some x := by
        rw [lookupPath_cons, findChild, if_pos rfl]
        exact hp
      have l2 : (MTree.node e0 ((k0, c0) :: tl)).lookupPath (s :: p2) = some x := by
        rw [lookupPath_cons, findChild, if_neg hs, mem_findChild hndtl hm]
        exact hl
      have := hne _ _ _ l1 l2
      injection this with h1 h2
      exact hs h1

end

/-! ### The flattened task forest and its entries -/

theorem flatForest_append (a b : List OpTask) :
    flatForest (a ++ b) = flatForest a ++ flatForest b := by
  induction a with
  | nil => simp [flatForest]
  | cons t tl ih =>
    rw [List.cons_append]
    rw [show flatForest (t :: (tl ++ b)) = flatTask t ++ flatForest (tl ++ b)
      from by simp [flatForest]]
    rw [show flatForest (t :: tl) = flatTask t ++ flatForest tl from by simp [flatForest]]
    rw [ih, List.append_assoc]

theorem flatForest_nil : flatForest ([] : List OpTask) = [] := by
  simp [flatForest]

theorem flatForest_cons (t : OpTask) (tl : List OpTask) :
    flatForest (t :: tl) = flatTask t ++ flatForest tl := by
  simp [flatForest]

theorem flatTask_def (e : Nat × Operation) (cs : List OpTask) :
    flatTask (.mk e cs) = .mk e cs :: flatForest cs := by
  simp [flatTask]

theorem mem_flatForest_of_mem {t : OpTask} {ts : List OpTask} (h : t ∈ ts) :
    t ∈ flatForest ts := by
  induction ts with
  | nil => simp at h
  | cons hd tl ih =>
    rw [show flatForest (hd :: tl) = flatTask hd ++ flatForest tl from by simp [flatForest]]
    rcases List.mem_cons.mp h with rfl | hmem
    · obtain ⟨e, cs⟩ := t
      rw [flatTask_def]
      exact List.mem_append.mpr (Or.inl (List.mem_cons_self _ _))
    · exact List.mem_append.mpr (Or.inr (ih hmem))

mutual

theorem sub_flatTask {w : OpTask} {ts : List OpTask} (hw : w ∈ ts)
    {x : OpTask} (hx : x ∈ flatTask w) : x ∈ flatForest ts := by
  match ts with
  | [] => simp at hw
  | hd :: tl =>
    rw [show flatForest (hd :: tl) = flatTask hd ++ flatForest tl from by simp [flatForest]]
    rcases List.mem_cons.mp hw with rfl | hmem
    · exact List.mem_append.mpr (Or.inl hx)
    · exact List.mem_append.mpr (Or.inr (sub_flatTask hmem hx))

theorem sub_flatForest {w : OpTask} {ts : List OpTask} (hw : w ∈ flatForest ts)
    {x : OpTask} (hx : x ∈ flatTask w) : x ∈ flatForest ts := by
  match ts with
  | [] => rw [show flatForest ([] : List OpTask) = [] from by simp [flatForest]] at hw; simp at hw
  | hd :: tl =>
    rw [show flatForest (hd :: tl) = flatTask hd ++ flatForest tl from by simp [flatForest]] at hw ⊢
    obtain ⟨e, cs⟩ := hd
    rcases List.mem_append.mp hw with h1 | h2
    · rw [flatTask_def] at h1
      rcases List.mem_cons.mp h1 with rfl | hmem
      · exact List.mem_append.mpr (Or.inl hx)
      · refine List.mem_append.mpr (Or.inl ?_)
        rw [flatTask_def]
        exact List.mem_cons_of_mem _ (sub_flatForest hmem hx)
    · exact List.mem_append.mpr (Or.inr (sub_flatForest h2 hx))

end

theorem children_sub_flatForest {w : OpTask} {ts : List OpTask}
    (hw : w ∈ flatForest ts) {c : OpTask} (hc : c ∈ w.children) :
    c ∈ flatForest ts := by
  obtain ⟨e, cs⟩ := w
  refine sub_flatForest hw ?_
  rw [flatTask_def]
  exact List.mem_cons_of_mem _ (mem_flatForest_of_mem hc)

mutual

theorem mapEntry_flat_constructTree (t : MTree) :
    (flatForest (constructTree t)).map OpTask.entry = entriesOfTree t := by
  match t with
  | .node (some x) ch =>
    rw [show constructTree (.node (some x) ch) = [.mk x (constructForest ch)]
      from by simp [constructTree]]
    rw [show flatForest [OpTask.mk x (constructForest ch)] =
      flatTask (.mk x (constructForest ch)) ++ flatForest [] from by simp [flatForest]]
    rw [show flatForest ([] : List OpTask) = [] from by simp [flatForest]]
    rw [flatTask_def, List.append_nil, List.map_cons]
    rw [mapEntry_flat_constructForest ch]
    rw [show entriesOfTree (.node (some x) ch) = (some x).toList ++ entriesOfForest ch
      from by simp [entriesOfTree]]
    rfl
  | .node none ch =>
    rw [show constructTree (.node none ch) = constructForest ch from by simp [constructTree]]
    rw [mapEntry_flat_constructForest ch]
    rw [show entriesOfTree (.node none ch) = (none : Option (Nat × Operation)).toList ++ entriesOfForest ch
      from by simp [entriesOfTree]]
    rfl

theorem mapEntry_flat_constructForest (ch : List (String × MTree)) :
    (flatForest (constructForest ch)).map OpTask.entry = entriesOfForest ch := by
  match ch with
  | [] =>
    rw [show constructForest ([] : List (String × MTree)) = [] from by simp [constructForest]]
    rw [show flatForest ([] : List OpTask) = [] from by simp [flatForest]]
    rw [show entriesOfForest ([] : List (String × MTree)) = [] from by simp [entriesOfForest]]
    rfl
  | (k0, c0) :: tl =>
    rw [show constructForest ((k0, c0) :: tl) = constructTree c0 ++ constructForest tl
      from by simp [constructForest]]
    rw [flatForest_append, List.map_append]
    rw [mapEntry_flat_constructTree c0, mapEntry_flat_constructForest tl]
    rw [show entriesOfForest ((k0, c0) :: tl) = entriesOfTree c0 ++ entriesOfForest tl
      from by simp [entriesOfForest]]

end

/-! ### Segment-ordering helpers -/

theorem isPreB_nil_left (q : List String) : isPreB [] q = true := by
  cases q <;> rfl

theorem isPreB_nil_right {q : List String} (h : isPreB q [] = true) : q = [] := by
  cases q with
  | nil => rfl
  | cons a as => simp [isPreB] at h

theorem isPreB_cons_iff {a b : String} {as bs : List String} :
    isPreB (a :: as) (b :: bs) = true ↔ a = b ∧ isPreB as bs = true := by
  simp [isPreB]

theorem strictPre_nil_elim {q : List String} (h : strictPre q []) : False :=
  h.2 (isPreB_nil_right h.1)

theorem strictPre_nil_cons (s : String) (q : List String) : strictPre [] (s :: q) :=
  ⟨rfl, by simp⟩

theorem strictPre_cons_case {q : List String} {s : String} {p0 : List String}
    (h : strictPre q (s :: p0)) : q = [] ∨ ∃ q0, q = s :: q0 ∧ strictPre q0 p0 := by
  cases q with
  | nil => exact Or.inl rfl
  | cons a as =>
    obtain ⟨ha, hp⟩ := isPreB_cons_iff.mp h.1
    subst ha
    refine Or.inr ⟨as, rfl, hp, ?_⟩
    intro hh
    exact h.2 (by rw [hh])

theorem strictPre_cons_lift (s : String) {p q : List String} (h : strictPre p q) :
    strictPre (s :: p) (s :: q) := by
  refine ⟨isPreB_cons_iff.mpr ⟨rfl, h.1⟩, ?_⟩
  intro hh
  exact h.2 (by injection hh)

theorem isPreB_cons_lift (s : String) {p q : List String} (h : isPreB p q = true) :
    isPreB (s :: p) (s :: q) = true :=
  isPreB_cons_iff.mpr ⟨rfl, h⟩

/-! ### Structure of the constructed forest -/

theorem mem_constructForest {b : OpTask} {ch : List (String × MTree)}
    (h : b ∈ constructForest ch) : ∃ s c, (s, c) ∈ ch ∧ b ∈ constructTree c := by
  induction ch with
  | nil =>
    rw [show constructForest ([] : List (String × MTree)) = [] from by simp [constructForest]] at h
    simp at h
  | cons hd tl ih =>
    obtain ⟨k0, c0⟩ := hd
    rw [show constructForest ((k0, c0) :: tl) = constructTree c0 ++ constructForest tl
      from by simp [constructForest]] at h
    rcases List.mem_append.mp h with h1 | h2
    · exact ⟨k0, c0, List.mem_cons_self _ _, h1⟩
    · obtain ⟨s, c, hm, hb⟩ := ih h2
      exact ⟨s, c, List.mem_cons_of_mem _ hm, hb⟩

theorem WFtree_forget {e0 : Option (Nat × Operation)} {ch : List (String × MTree)}
    (h : WFtree (.node e0 ch)) : WFtree (.node none ch) := by
  rw [WFtree_node] at h ⊢
  exact h

theorem lookup_entry_irrel (e0 e1 : Option (Nat × Operation))
    (ch : List (String × MTree)) (s : String) (p : List String) :
    (MTree.node e0 ch).lookupPath (s :: p) = (MTree.node e1 ch).lookupPath (s :: p) := by
  rw [lookupPath_cons, lookupPath_cons]

theorem NEtree_forget {e0 : Option (Nat × Operation)} {ch : List (String × MTree)}
    (h : NEtree (.node e0 ch)) : NEtree (.node none ch) := by
  intro p q x h1 h2
  cases p with
  | nil => cases h1
  | cons s1 r1 =>
    cases q with
    | nil => cases h2
    | cons s2 r2 =>
      exact h (s1 :: r1) (s2 :: r2) x
        (by rw [lookup_entry_irrel e0 none ch s1 r1]; exact h1)
        (by rw [lookup_entry_irrel e0 none ch s2 r2]; exact h2)

theorem lookup_cons_key_mem {e0 : Option (Nat × Operation)}
    {ch : List (String × MTree)} {s : String} {p : List String}
    {x : Nat × Operation}
    (h : (MTree.node e0 ch).lookupPath (s :: p) = some x) :
    s ∈ ch.map Prod.fst := by
  rw [lookupPath_cons] at h
  cases hf : findChild ch s with
  | none => rw [hf] at h; cases h
  | some c => exact List.mem_map_of_mem Prod.fst (findChild_mem hf)

theorem entry_lookup_of_mem_flat_tree {c0 : MTree} (hw : WFtree c0) {w : OpTask}
    (h : w ∈ flatForest (constructTree c0)) :
    ∃ p, c0.lookupPath p = some w.entry := by
  refine lookup_of_mem_entriesOfTree hw ?_
  rw [← mapEntry_flat_constructTree c0]
  exact List.mem_map_of_mem OpTask.entry h

theorem entry_lookupF_of_mem_flat_forest {ch : List (String × MTree)}
    (hw : WFforest ch) {w : OpTask}
    (h : w ∈ flatForest (constructForest ch)) :
    ∃ s c p, (s, c) ∈ ch ∧ c.lookupPath p = some w.entry := by
  refine lookupF_of_mem_entriesOfForest hw ?_
  rw [← mapEntry_flat_constructForest ch]
  exact List.mem_map_of_mem OpTask.entry h

/-! ### Top-level tasks have no ancestor entries

A task at the top level of the constructed forest has no other entry stored
at a strict ancestor of its own path: constructOperationTree wraps every
entry below a stored entry inside that entry's task. -/

mutual

theorem topNoAncestorTree (t : MTree) (hw : WFtree t) (hne : NEtree t)
    {b : OpTask} (hb : b ∈ constructTree t)
    {pb : List String} (hpb : t.lookupPath pb = some b.entry)
    {q : List String} {y : Nat × Operation} (hq : t.lookupPath q = some y)
    (hs : strictPre q pb) : False := by
  match t with
  | .node (some x) ch =>
    rw [show constructTree (.node (some x) ch) = [.mk x (constructForest ch)]
      from by simp [constructTree]] at hb
    have hb2 := List.mem_singleton.mp hb
    have hbe : b.entry = x := by rw [hb2]; rfl
    have hl0 : (MTree.node (some x) ch).lookupPath [] = some b.entry := by
      rw [hbe]; rfl
    have hpbnil : pb = [] := hne pb [] b.entry hpb hl0
    rw [hpbnil] at hs
    exact strictPre_nil_elim hs
  | .node none ch =>
    rw [show constructTree (.node none ch) = constructForest ch
      from by simp [constructTree]] at hb
    exact topNoAncestorForest ch hw hne hb hpb hq hs

theorem topNoAncestorForest (ch : List (String × MTree))
    (hw : WFtree (.node none ch)) (hne : NEtree (.node none ch))
    {b : OpTask} (hb : b ∈ constructForest ch)
    {pb : List String} (hpb : (MTree.node none ch).lookupPath pb = some b.entry)
    {q : List String} {y : Nat × Operation}
    (hq : (MTree.node none ch).lookupPath q = some y)
    (hs : strictPre q pb) : False := by
  match ch with
  | [] =>
    rw [show constructForest ([] : List (String × MTree)) = [] from by simp [constructForest]] at hb
    simp at hb
  | (k0, c0) :: tl =>
    obtain ⟨knd, hwf⟩ := (WFtree_node none ((k0, c0) :: tl)).mp hw
    obtain ⟨hwc0, hwtl0⟩ := (WFforest_cons k0 c0 tl).mp hwf
    rw [show constructForest ((k0, c0) :: tl) = constructTree c0 ++ constructForest tl
      from by simp [constructForest]] at hb
    rcases List.mem_append.mp hb with hb1 | hb2
    · obtain ⟨p0, hp0⟩ := entry_lookup_of_mem_flat_tree hwc0 (mem_flatForest_of_mem hb1)
      have hlift : (MTree.node none ((k0, c0) :: tl)).lookupPath (k0 :: p0) = some b.entry := by
        rw [lookupPath_cons, findChild, if_pos rfl]
        exact hp0
      have hpbeq : pb = k0 :: p0 := hne pb (k0 :: p0) b.entry hpb hlift
      rw [hpbeq] at hs
      rcases strictPre_cons_case hs with rfl | ⟨q0, rfl, hs0⟩
      · cases hq
      · rw [lookupPath_cons, findChild, if_pos rfl] at hq
        exact topNoAncestorTree c0 hwc0
          (NEtree_child hne knd (List.mem_cons_self _ _)) hb1 hp0 hq hs0
    · have hndtl : (tl.map Prod.fst).Nodup := by
        simp only [List.map_cons, List.nodup_cons] at knd
        exact knd.2
      have hk0tl : k0 ∉ tl.map Prod.fst := by
        simp only [List.map_cons, List.nodup_cons] at knd
        exact knd.1
      have hwtl : WFtree (.node none tl) := (WFtree_node none tl).mpr ⟨hndtl, hwtl0⟩
      have hnetl : NEtree (.node none tl) := NEtree_tail hne knd
      obtain ⟨s, c, p, hm, hp⟩ := entry_lookupF_of_mem_flat_forest hwtl0
        (mem_flatForest_of_mem hb2)
      have hpb2 : (MTree.node none tl).lookupPath (s :: p) = some b.entry := by
        rw [lookupPath_cons, mem_findChild hndtl hm]
        exact hp
      have hpbeq : pb = s :: p :=
        hne pb (s :: p) b.entry hpb (lookup_tail_lift knd hpb2)
      rw [hpbeq] at hs
      have hks : k0 ≠ s := by
        intro hh
        subst hh
        exact hk0tl (List.mem_map_of_mem Prod.fst hm)
      rcases strictPre_cons_case hs with rfl | ⟨q0, rfl, hs0⟩
      · cases hq
      · have hqtl : (MTree.node none tl).lookupPath (s :: q0) = some y := by
          rw [lookupPath_cons] at hq ⊢
          rw [findChild, if_neg hks] at hq
          exact hq
        exact topNoAncestorForest tl hwtl hnetl hb2 hpb2 hqtl
          (strictPre_cons_lift s hs0)

end

/-! ### A task's parent is its tightest ancestor entry

If c is a direct child of task w in the constructed forest, then w's entry
path is a strict ancestor of c's entry path and every other entry that is a
strict ancestor of c's path is an ancestor (proper or not) of w's path. -/

mutual

theorem parentTighterTree (t : MTree) (hw : WFtree t) (hne : NEtree t)
    {w : OpTask} (hwm : w ∈ flatForest (constructTree t))
    {c : OpTask} (hc : c ∈ w.children) :
    ∃ pw pc, t.lookupPath pw = some w.entry ∧ t.lookupPath pc = some c.entry ∧
      strictPre pw pc ∧
      ∀ q y, t.lookupPath q = some y → strictPre q pc → isPreB q pw = true := by
  match t with
  | .node (some x) ch =>
    obtain ⟨knd, hwf⟩ := (WFtree_node (some x) ch).mp hw
    rw [show constructTree (.node (some x) ch) = [.mk x (constructForest ch)]
      from by simp [constructTree]] at hwm
    rw [show flatForest [OpTask.mk x (constructForest ch)] =
        flatTask (.mk x (constructForest ch)) ++ flatForest []
      from by simp [flatForest]] at hwm
    rw [show flatForest ([] : List OpTask) = [] from by simp [flatForest]] at hwm
    rw [flatTask_def, List.append_nil] at hwm
    rcases List.mem_cons.mp hwm with rfl | hwm2
    · have hcf : c ∈ constructForest ch := hc
      obtain ⟨s, cc, p, hm, hp⟩ := entry_lookupF_of_mem_flat_forest hwf
        (mem_flatForest_of_mem hcf)
      refine ⟨[], s :: p, rfl, ?_, strictPre_nil_cons s p, ?_⟩
      · rw [lookupPath_cons, mem_findChild knd hm]
        exact hp
      · intro q y hq hqs
        rcases strictPre_cons_case hqs with rfl | ⟨q0, rfl, hs0⟩
        · rfl
        · exfalso
          have hpcn : (MTree.node none ch).lookupPath (s :: p) = some c.entry := by
            rw [← lookup_entry_irrel (some x) none ch s p]
            rw [lookupPath_cons, mem_findChild knd hm]
            exact hp
          have hqn : (MTree.node none ch).lookupPath (s :: q0) = some y := by
            rw [← lookup_entry_irrel (some x) none ch s q0]
            exact hq
          exact topNoAncestorForest ch (WFtree_forget hw) (NEtree_forget hne)
            hcf hpcn hqn (strictPre_cons_lift s hs0)
    · obtain ⟨pw, pc, h1, h2, h3, h4⟩ := parentTighterForest ch (WFtree_forget hw)
        (NEtree_forget hne) hwm2 hc
    -- lookups in the entryless node are necessarily at non-empty paths
      have hpw : ∃ s r, pw = s :: r := by
        cases pw with
        | nil => cases h1
        | cons s r => exact ⟨s, r, rfl⟩
      have hpc : ∃ s r, pc = s :: r := by
        cases pc with
        | nil => cases h2
        | cons s r => exact ⟨s, r, rfl⟩
      obtain ⟨s1, r1, rfl⟩ := hpw
      obtain ⟨s2, r2, rfl⟩ := hpc
      refine ⟨s1 :: r1, s2 :: r2, ?_, ?_, h3, ?_⟩
      · rw [lookup_entry_irrel (some x) none ch s1 r1]; exact h1
      · rw [lookup_entry_irrel (some x) none ch s2 r2]; exact h2
      · intro q y hq hqs
        cases q with
        | nil => exact isPreB_nil_left _
        | cons sq rq =>
          refine h4 (sq :: rq) y ?_ hqs
          rw [← lookup_entry_irrel (some x) none ch sq rq]
          exact hq
  | .node none ch =>
    rw [show constructTree (.node none ch) = constructForest ch
      from by simp [constructTree]] at hwm
    exact parentTighterForest ch hw hne hwm hc

theorem parentTighterForest (ch : List (String × MTree))
    (hw : WFtree (.node none ch)) (hne : NEtree (.node none ch))
    {w : OpTask} (hwm : w ∈ flatForest (constructForest ch))
    {c : OpTask} (hc : c ∈ w.children) :
    ∃ pw pc,
      (MTree.node none ch).lookupPath pw = some w.entry ∧
      (MTree.node none ch).lookupPath pc = some c.entry ∧
      strictPre pw pc ∧
      ∀ q y, (MTree.node none ch).lookupPath q = some y → strictPre q pc →
        isPreB q pw = true := by
  match ch with
  | [] =>
    rw [show constructForest ([] : List (String × MTree)) = [] from by simp [constructForest]] at hwm
    rw [show flatForest ([] : List OpTask) = [] from by simp [flatForest]] at hwm
    simp at hwm
  | (k0, c0) :: tl =>
    obtain ⟨knd, hwf⟩ := (WFtree_node none ((k0, c0) :: tl)).mp hw
    obtain ⟨hwc0, hwtl0⟩ := (WFforest_cons k0 c0 tl).mp hwf
    have hndtl : (tl.map Prod.fst).Nodup := by
      simp only [List.map_cons, List.nodup_cons] at knd
      exact knd.2
    have hk0tl : k0 ∉ tl.map Prod.fst := by
      simp only [List.map_cons, List.nodup_cons] at knd
      exact knd.1
    rw [show constructForest ((k0, c0) :: tl) = constructTree c0 ++ constructForest tl
      from by simp [constructForest]] at hwm
    rw [flatForest_append] at hwm
    rcases List.mem_append.mp hwm with hw1 | hw2
    · obtain ⟨pw0, pc0, h1, h2, h3, h4⟩ := parentTighterTree c0 hwc0
        (NEtree_child hne knd (List.mem_cons_self _ _)) hw1 hc
      refine ⟨k0 :: pw0, k0 :: pc0, ?_, ?_, strictPre_cons_lift k0 h3, ?_⟩
      · rw [lookupPath_cons, findChild, if_pos rfl]; exact h1
      · rw [lookupPath_cons, findChild, if_pos rfl]; exact h2
      · intro q y hq hqs
        rcases strictPre_cons_case hqs with rfl | ⟨q0, rfl, hs0⟩
        · cases hq
        · rw [lookupPath_cons, findChild, if_pos rfl] at hq
          exact isPreB_cons_lift k0 (h4 q0 y hq hs0)
    · have hwtl : WFtree (.node none tl) := (WFtree_node none tl).mpr ⟨hndtl, hwtl0⟩
      have hnetl : NEtree (.node none tl) := NEtree_tail hne knd
      obtain ⟨pw, pc, h1, h2, h3, h4⟩ := parentTighterForest tl hwtl hnetl hw2 hc
      have hpc : ∃ s r, pc = s :: r := by
        cases pc with
        | nil => cases h2
        | cons s r => exact ⟨s, r, rfl⟩
      obtain ⟨s2, r2, rfl⟩ := hpc
      have hs2 : s2 ∈ tl.map Prod.fst := lookup_cons_key_mem h2
      have hks2 : k0 ≠ s2 := by
        intro hh
        subst hh
        exact hk0tl hs2
      refine ⟨pw, s2 :: r2, lookup_tail_lift knd h1, lookup_tail_lift knd h2, h3, ?_⟩
      intro q y hq hqs
      rcases strictPre_cons_case hqs with rfl | ⟨q0, rfl, hs0⟩
      · cases hq
      · refine h4 (s2 :: q0) y ?_ hqs
        rw [lookupPath_cons] at hq ⊢
        rw [findChild, if_neg hks2] at hq
        exact hq

end

/-! ### Global structure of createOperationTree's output -/

theorem mapEntry_flat_createOperationTree (ops : List Operation) :
    (flatForest (createOperationTree ops)).map OpTask.entry =
      entriesOfTree (buildRoot ops) := by
  unfold createOperationTree
  exact mapEntry_flat_constructTree (buildRoot ops)

theorem nodup_mapEntry_flat (ops : List Operation) :
    ((flatForest (createOperationTree ops)).map OpTask.entry).Nodup := by
  rw [mapEntry_flat_createOperationTree]
  exact nodup_entriesOfTree (buildRoot ops) (WFtree_buildRoot ops) (NEtree_buildRoot ops)

theorem nodup_flat_createOperationTree (ops : List Operation) :
    (flatForest (createOperationTree ops)).Nodup :=
  List.Nodup.of_map _ (nodup_mapEntry_flat ops)

theorem task_entry_injective {ops : List Operation} {w w2 : OpTask}
    (h1 : w ∈ flatForest (createOperationTree ops))
    (h2 : w2 ∈ flatForest (createOperationTree ops))
    (he : w.entry = w2.entry) : w = w2 :=
  List.inj_on_of_nodup_map (nodup_mapEntry_flat ops) h1 h2 he

theorem lookup_segs_of_mem_flat {ops : List Operation} {w : OpTask}
    (h : w ∈ flatForest (createOperationTree ops)) :
    (buildRoot ops).lookupPath w.segs = some w.entry := by
  have hmem : w.entry ∈ entriesOfTree (buildRoot ops) := by
    rw [← mapEntry_flat_createOperationTree]
    exact List.mem_map_of_mem OpTask.entry h
  obtain ⟨p, hp⟩ := lookup_of_mem_entriesOfTree (WFtree_buildRoot ops) hmem
  have hp2 : (buildRoot ops).lookupPath p = some (w.entry.1, w.entry.2) := by
    rw [hp]
  have hseg := (lookupPath_buildRoot_some hp2).1
  have hsegs : w.segs = p := by
    show splitDest w.operation.dest = p
    exact hseg
  rw [hsegs]
  exact hp

theorem parent_tightest {ops : List Operation} {w : OpTask}
    (hw : w ∈ flatForest (createOperationTree ops)) {c : OpTask}
    (hc : c ∈ w.children) :
    strictPre w.segs c.segs ∧
      ∀ A, A ∈ flatForest (createOperationTree ops) →
        strictPre A.segs c.segs → isPreB A.segs w.segs = true := by
  obtain ⟨pw, pc, h1, h2, h3, h4⟩ := parentTighterTree (buildRoot ops)
    (WFtree_buildRoot ops) (NEtree_buildRoot ops) hw hc
  have hcf : c ∈ flatForest (createOperationTree ops) := children_sub_flatForest hw hc
  have hpw : pw = w.segs :=
    NEtree_buildRoot ops pw w.segs w.entry h1 (lookup_segs_of_mem_flat hw)
  have hpc : pc = c.segs :=
    NEtree_buildRoot ops pc c.segs c.entry h2 (lookup_segs_of_mem_flat hcf)
  rw [hpw, hpc] at h3
  refine ⟨h3, ?_⟩
  intro A hA hsA
  have h5 := h4 A.segs A.entry (lookup_segs_of_mem_flat hA) (hpc ▸ hsA)
  rw [hpw] at h5
  exact h5

/-! ### The scheduler invariant -/

theorem schedInv_init (ops : List Operation) (enabled : Bool) (c : Nat) :
    SchedInv (createOperationTree ops) enabled
      (batchInit (createOperationTree ops) enabled c) := by
  unfold SchedInv batchInit Released
  dsimp only
  refine ⟨?_, ?_, ?_, ?_, ?_⟩
  · simp only [List.length_take, List.length_nil]
    omega
  · cases enabled <;> simp
  · rw [show flatForest ([] : List OpTask) = [] from by simp [flatForest]]
    simp only [List.nil_append, List.append_nil]
    rw [← flatForest_append, List.take_append_drop]
  · intro t ht
    simp only [List.not_mem_nil, or_false, false_or] at ht
    rcases ht with h1 | h2
    · exact Or.inl (List.mem_of_mem_drop h1)
    · exact Or.inl (List.mem_of_mem_take h2)
  · intro B hB A hA hs
    exfalso
    simp only [List.not_mem_nil, or_false, false_or] at hB
    have hBtop : B ∈ createOperationTree ops := by
      rcases hB with h1 | h2
      · exact List.mem_of_mem_drop h1
      · exact List.mem_of_mem_take h2
    exact topNoAncestorTree (buildRoot ops) (WFtree_buildRoot ops)
      (NEtree_buildRoot ops) hBtop
      (lookup_segs_of_mem_flat (mem_flatForest_of_mem hBtop))
      (lookup_segs_of_mem_flat hA) hs

theorem schedInv_fail {ops : List Operation} {enabled : Bool} {s : BatchState}
    {i : Nat} (h : i < s.active.length)
    (hInv : SchedInv (createOperationTree ops) enabled s) :
    SchedInv (createOperationTree ops) enabled (failWorker s i) := by
  obtain ⟨hI, hII, hIII, hIV, hV⟩ := hInv
  have hw? : s.active[i]? = some s.active[i] := List.getElem?_eq_getElem h
  have hact : s.active = s.active.take i ++ s.active[i] :: s.active.drop (i + 1) := by
    rw [List.getElem_cons_drop, List.take_append_drop]
  have heri : s.active.eraseIdx i = s.active.take i ++ s.active.drop (i + 1) :=
    List.eraseIdx_eq_take_drop_succ _ _
  unfold failWorker
  rw [hw?]
  dsimp only
  refine ⟨?_, hII, ?_, ?_, ?_⟩
  · show s.activeWorkers =
      (s.active.eraseIdx i).length + (s.failedTasks ++ [s.active[i]]).length
    rw [List.length_eraseIdx_of_lt h, List.length_append, List.length_singleton]
    omega
  · show (flatForest (createOperationTree ops)).Perm
      (s.completed ++ flatForest (s.active.eraseIdx i) ++ flatForest s.remaining ++
        flatForest (s.failedTasks ++ [s.active[i]]))
    rw [← Multiset.coe_eq_coe] at hIII ⊢
    rw [hact] at hIII
    rw [flatForest_append, flatForest_cons] at hIII
    rw [heri, flatForest_append, flatForest_append, flatForest_cons, flatForest_nil,
      List.append_nil]
    simp only [← Multiset.coe_add] at hIII ⊢
    rw [hIII]
    abel
  · intro t ht
    have hrel : Released s t := by
      rcases ht with h1 | h2 | h3 | h4
      · exact Or.inl h1
      · exact Or.inr (Or.inl (List.mem_of_mem_eraseIdx h2))
      · exact Or.inr (Or.inr (Or.inl h3))
      · rcases List.mem_append.mp h4 with h5 | h6
        · exact Or.inr (Or.inr (Or.inr h5))
        · rw [List.mem_singleton.mp h6]
          exact Or.inr (Or.inl (List.getElem_mem h))
    exact hIV t hrel
  · intro B hB A hA hs
    have hrel : Released s B := by
      rcases hB with h1 | h2 | h3 | h4
      · exact Or.inl h1
      · exact Or.inr (Or.inl (List.mem_of_mem_eraseIdx h2))
      · exact Or.inr (Or.inr (Or.inl h3))
      · rcases List.mem_append.mp h4 with h5 | h6
        · exact Or.inr (Or.inr (Or.inr h5))
        · rw [List.mem_singleton.mp h6]
          exact Or.inr (Or.inl (List.getElem_mem h))
    exact hV B hrel A hA hs

theorem flatTask_eq (t : OpTask) : flatTask t = t :: flatForest t.children := by
  obtain ⟨e, cs⟩ := t
  rw [flatTask_def]
  rfl

theorem schedInv_complete {ops : List Operation} {enabled : Bool} {s : BatchState}
    {i : Nat} (h : i < s.active.length)
    (hInv : SchedInv (createOperationTree ops) enabled s) :
    SchedInv (createOperationTree ops) enabled (completeWorker s i) := by
  obtain ⟨hI, hII, hIII, hIV, hV⟩ := hInv
  have hw? : s.active[i]? = some s.active[i] := List.getElem?_eq_getElem h
  have hact : s.active = s.active.take i ++ s.active[i] :: s.active.drop (i + 1) := by
    rw [List.getElem_cons_drop, List.take_append_drop]
  have heri : s.active.eraseIdx i = s.active.take i ++ s.active.drop (i + 1) :=
    List.eraseIdx_eq_take_drop_succ _ _
  have hwact : s.active[i] ∈ s.active := List.getElem_mem h
  have hwrel : Released s s.active[i] := Or.inr (Or.inl hwact)
  have hwF : s.active[i] ∈ flatForest (createOperationTree ops) :=
    hIII.mem_iff.mpr (by
      simp only [List.mem_append]
      exact Or.inl (Or.inl (Or.inr (mem_flatForest_of_mem hwact))))
  have hactM : (↑(flatForest s.active) : Multiset OpTask) =
      ↑(flatForest (s.active.take i)) + ↑(flatTask s.active[i]) +
        ↑(flatForest (s.active.drop (i + 1))) := by
    conv_lhs => rw [hact]
    rw [flatForest_append, flatForest_cons, ← Multiset.coe_add, ← Multiset.coe_add]
    abel
  have heriM : (↑(flatForest (s.active.eraseIdx i)) : Multiset OpTask) =
      ↑(flatForest (s.active.take i)) + ↑(flatForest (s.active.drop (i + 1))) := by
    rw [heri, flatForest_append, ← Multiset.coe_add]
  have hwM : (↑(flatTask s.active[i]) : Multiset OpTask) =
      {s.active[i]} + ↑(flatForest (s.active[i]).children) := by
    rw [flatTask_eq, ← Multiset.cons_coe, ← Multiset.singleton_add]
  have hIIIM : (↑(flatForest (createOperationTree ops)) : Multiset OpTask) =
      ↑s.completed + ↑(flatForest s.active) + ↑(flatForest s.remaining) +
        ↑(flatForest s.failedTasks) := by
    have hc := Multiset.coe_eq_coe.mpr hIII
    rw [hc, ← Multiset.coe_add, ← Multiset.coe_add, ← Multiset.coe_add]
  -- the argument for conjunct (v) when B is a newly released child of the worker
  have hVchild : ∀ B, B ∈ (s.active[i]).children →
      ∀ A, A ∈ flatForest (createOperationTree ops) → strictPre A.segs B.segs →
        A ∈ s.completed ++ [s.active[i]] := by
    intro B hc A hA hs
    have hpt := parent_tightest hwF hc
    have hiso := hpt.2 A hA hs
    by_cases heq : A.segs = (s.active[i]).segs
    · have hae : A.entry = (s.active[i]).entry := by
        have l1 := lookup_segs_of_mem_flat hA
        have l2 := lookup_segs_of_mem_flat hwF
        rw [heq] at l1
        exact Option.some.inj (l1.symm.trans l2)
      rw [task_entry_injective hA hwF hae]
      exact List.mem_append_right _ (List.mem_singleton.mpr rfl)
    · exact List.mem_append_left _ (hV (s.active[i]) hwrel A hA ⟨hiso, heq⟩)
  have hIVup : ∀ x, Released s x →
      x ∈ createOperationTree ops ∨
        ∃ p, p ∈ s.completed ++ [s.active[i]] ∧ x ∈ p.children := by
    intro x hx
    rcases hIV x hx with h1 | ⟨p, hp, hcp⟩
    · exact Or.inl h1
    · exact Or.inr ⟨p, List.mem_append_left _ hp, hcp⟩
  unfold completeWorker
  rw [hw?]
  dsimp only
  cases hrem : s.remaining ++ (s.active[i]).children with
  | nil =>
    obtain ⟨hremnil, hchnil⟩ := List.append_eq_nil.mp hrem
    refine ⟨?_, ?_, ?_, ?_, ?_⟩
    · show s.activeWorkers - 1 =
        (s.active.eraseIdx i).length + s.failedTasks.length
      rw [List.length_eraseIdx_of_lt h]
      omega
    · show s.resultsAcc.map
          (fun rs => rs ++ [((s.active[i]).index, (s.active[i]).operation)]) =
        if enabled = true then
          some ((s.completed ++ [s.active[i]]).map (fun t => (t.index, t.operation)))
        else none
      rw [hII]
      cases enabled <;> simp
    · show (flatForest (createOperationTree ops)).Perm
        ((s.completed ++ [s.active[i]]) ++ flatForest (s.active.eraseIdx i) ++
          flatForest [] ++ flatForest s.failedTasks)
      rw [← Multiset.coe_eq_coe]
      rw [hIIIM, hactM, hwM, hremnil, hchnil, flatForest_nil]
      simp only [← Multiset.coe_add]
      rw [heriM, Multiset.coe_singleton, Multiset.coe_nil]
      abel
    · intro x hx
      rcases hx with h1 | h2 | h3 | h4
      · cases h1
      · exact hIVup x (Or.inr (Or.inl (List.mem_of_mem_eraseIdx h2)))
      · rcases List.mem_append.mp h3 with h5 | h6
        · exact hIVup x (Or.inr (Or.inr (Or.inl h5)))
        · rw [List.mem_singleton.mp h6]
          exact hIVup _ hwrel
      · exact hIVup x (Or.inr (Or.inr (Or.inr h4)))
    · intro B hB A hA hs
      have hrelB : Released s B := by
        rcases hB with h1 | h2 | h3 | h4
        · cases h1
        · exact Or.inr (Or.inl (List.mem_of_mem_eraseIdx h2))
        · rcases List.mem_append.mp h3 with h5 | h6
          · exact Or.inr (Or.inr (Or.inl h5))
          · rw [List.mem_singleton.mp h6]
            exact hwrel
        · exact Or.inr (Or.inr (Or.inr h4))
      exact List.mem_append_left _ (hV B hrelB A hA hs)
  | cons t ts =>
    have hsplit : ∀ x, x ∈ t :: ts → Released s x ∨ x ∈ (s.active[i]).children := by
      intro x hx
      rw [← hrem] at hx
      rcases List.mem_append.mp hx with h1 | h2
      · exact Or.inl (Or.inl h1)
      · exact Or.inr h2
    have h2L : flatTask t ++ flatForest ts =
        flatForest s.remaining ++ flatForest (s.active[i]).children := by
      rw [← flatForest_cons, ← hrem, flatForest_append]
    have h2M : (↑(flatTask t) : Multiset OpTask) + ↑(flatForest ts) =
        ↑(flatForest s.remaining) + ↑(flatForest (s.active[i]).children) := by
      rw [Multiset.coe_add, Multiset.coe_add, h2L]
    refine ⟨?_, ?_, ?_, ?_, ?_⟩
    · show s.activeWorkers - 1 + 1 =
        (s.active.eraseIdx i ++ [t]).length + s.failedTasks.length
      rw [List.length_append, List.length_eraseIdx_of_lt h, List.length_singleton]
      omega
    · show s.resultsAcc.map
          (fun rs => rs ++ [((s.active[i]).index, (s.active[i]).operation)]) =
        if enabled = true then
          some ((s.completed ++ [s.active[i]]).map (fun t => (t.index, t.operation)))
        else none
      rw [hII]
      cases enabled <;> simp
    · show (flatForest (createOperationTree ops)).Perm
        ((s.completed ++ [s.active[i]]) ++ flatForest (s.active.eraseIdx i ++ [t]) ++
          flatForest ts ++ flatForest s.failedTasks)
      rw [← Multiset.coe_eq_coe]
      rw [hIIIM, hactM, hwM]
      rw [show flatForest (s.active.eraseIdx i ++ [t]) =
          flatForest (s.active.eraseIdx i) ++ (flatTask t ++ flatForest ([] : List OpTask))
        from by rw [flatForest_append, flatForest_cons]]
      rw [flatForest_nil, List.append_nil]
      simp only [← Multiset.coe_add]
      rw [heriM, Multiset.coe_singleton]
      have hmid : (↑s.completed : Multiset OpTask) +
          (↑(flatForest (s.active.take i)) +
            ({s.active[i]} + ↑(flatForest (s.active[i]).children)) +
            ↑(flatForest (s.active.drop (i + 1)))) +
          ↑(flatForest s.remaining) + ↑(flatForest s.failedTasks) =
          (↑s.completed + {s.active[i]} + ↑(flatForest (s.active.take i)) +
            ↑(flatForest (s.active.drop (i + 1))) + ↑(flatForest s.failedTasks)) +
          (↑(flatTask t) + ↑(flatForest ts)) := by
        calc (↑s.completed : Multiset OpTask) +
            (↑(flatForest (s.active.take i)) +
              ({s.active[i]} + ↑(flatForest (s.active[i]).children)) +
              ↑(flatForest (s.active.drop (i + 1)))) +
            ↑(flatForest s.remaining) + ↑(flatForest s.failedTasks)
            = (↑s.completed + {s.active[i]} + ↑(flatForest (s.active.take i)) +
                ↑(flatForest (s.active.drop (i + 1))) + ↑(flatForest s.failedTasks)) +
              (↑(flatForest s.remaining) + ↑(flatForest (s.active[i]).children)) := by
              abel
        _ = _ := by rw [← h2M]
      rw [hmid]
      abel
    · intro x hx
      rcases hx with h1 | h2 | h3 | h4
      · rcases hsplit x (List.mem_cons_of_mem _ h1) with hr | hchild
        · exact hIVup x hr
        · exact Or.inr ⟨s.active[i],
            List.mem_append_right _ (List.mem_singleton.mpr rfl), hchild⟩
      · rcases List.mem_append.mp h2 with h5 | h6
        · exact hIVup x (Or.inr (Or.inl (List.mem_of_mem_eraseIdx h5)))
        · rw [List.mem_singleton.mp h6]
          rcases hsplit t (List.mem_cons_self _ _) with hr | hchild
          · exact hIVup t hr
          · exact Or.inr ⟨s.active[i],
              List.mem_append_right _ (List.mem_singleton.mpr rfl), hchild⟩
      · rcases List.mem_append.mp h3 with h5 | h6
        · exact hIVup x (Or.inr (Or.inr (Or.inl h5)))
        · rw [List.mem_singleton.mp h6]
          exact hIVup _ hwrel
      · exact hIVup x (Or.inr (Or.inr (Or.inr h4)))
    · intro B hB A hA hs
      have hrelB : Released s B ∨ B ∈ (s.active[i]).children := by
        rcases hB with h1 | h2 | h3 | h4
        · exact hsplit B (List.mem_cons_of_mem _ h1)
        · rcases List.mem_append.mp h2 with h5 | h6
          · exact Or.inl (Or.inr (Or.inl (List.mem_of_mem_eraseIdx h5)))
          · rw [List.mem_singleton.mp h6]
            exact hsplit t (List.mem_cons_self _ _)
        · rcases List.mem_append.mp h3 with h5 | h6
          · exact Or.inl (Or.inr (Or.inr (Or.inl h5)))
          · rw [List.mem_singleton.mp h6]
            exact Or.inl hwrel
        · exact Or.inl (Or.inr (Or.inr (Or.inr h4)))
      rcases hrelB with hr | hchild
      · exact List.mem_append_left _ (hV B hr A hA hs)
      · exact hVchild B hchild A hA hs

theorem schedInv_step {ops : List Operation} {enabled : Bool} {s s2 : BatchState}
    (hInv : SchedInv (createOperationTree ops) enabled s) (hstep : BatchStep s s2) :
    SchedInv (createOperationTree ops) enabled s2 := by
  cases hstep with
  | complete i h => exact schedInv_complete h hInv
  | fail i h => exact schedInv_fail h hInv

theorem schedInv_reachable {ops : List Operation} {enabled : Bool} {c : Nat}
    {s : BatchState}
    (hr : BatchReachable (batchInit (createOperationTree ops) enabled c) s) :
    SchedInv (createOperationTree ops) enabled s := by
  induction hr with
  | refl => exact schedInv_init ops enabled c
  | step hr hstep ih => exact schedInv_step ih hstep

theorem completed_not_active {ops : List Operation} {enabled : Bool}
    {s : BatchState} (hInv : SchedInv (createOperationTree ops) enabled s)
    {A : OpTask} (hAc : A ∈ s.completed) : A ∉ s.active := by
  intro hAa
  have hndR : (s.completed ++ flatForest s.active ++ flatForest s.remaining ++
      flatForest s.failedTasks).Nodup :=
    hInv.2.2.1.nodup (nodup_flat_createOperationTree ops)
  have h1 := (List.nodup_append.mp hndR).1
  have h2 := (List.nodup_append.mp h1).1
  have hdisj := List.disjoint_of_nodup_append h2
  exact hdisj hAc (mem_flatForest_of_mem hAa)

/-! ### Enumeration order and the final sort -/

theorem map_snd_enumFrom (j : Nat) (ops : List Operation) :
    (enumFrom j ops).map Prod.snd = ops := by
  induction ops generalizing j with
  | nil => rfl
  | cons op tl ih => simp [enumFrom, ih]

theorem pairwise_fst_lt_enumFrom (j : Nat) (ops : List Operation) :
    (enumFrom j ops).Pairwise (fun a b => a.1 < b.1) := by
  induction ops generalizing j with
  | nil => exact List.Pairwise.nil
  | cons op tl ih =>
    refine List.Pairwise.cons ?_ (ih (j + 1))
    intro x hx
    have := (mem_enumFrom tl (j + 1) x.1 x.2).mp (by simpa using hx)
    omega

theorem nodup_enumFrom (j : Nat) (ops : List Operation) :
    (enumFrom j ops).Nodup :=
  (pairwise_fst_lt_enumFrom j ops).imp (fun h heq => by
    rw [heq] at h
    exact absurd h (lt_irrefl _))

theorem pairwise_getElem_drop {α : Type} {R : α → α → Prop} :
    ∀ (l : List α) (i : Nat) (x : α), l.Pairwise R → l[i]? = some x →
      ∀ y ∈ l.drop (i + 1), R x y := by
  intro l
  induction l with
  | nil => intro i x _ hx; cases hx
  | cons a tl ih =>
    intro i x hp hx y hy
    cases i with
    | zero =>
      simp only [List.getElem?_cons_zero] at hx
      rw [Option.some.inj hx] at hp
      simp only [List.drop_succ_cons, List.drop_zero] at hy
      exact (List.pairwise_cons.mp hp).1 y hy
    | succ n =>
      simp only [List.getElem?_cons_succ] at hx
      simp only [List.drop_succ_cons] at hy
      exact ih n x (List.pairwise_cons.mp hp).2 hx y hy

theorem entries_perm_enum {ops : List Operation}
    (hdd : ops.Pairwise (fun a b => a.dest ≠ b.dest)) :
    (entriesOfTree (buildRoot ops)).Perm (enumFrom 0 ops) := by
  rw [List.perm_ext_iff_of_nodup
    (nodup_entriesOfTree (buildRoot ops) (WFtree_buildRoot ops) (NEtree_buildRoot ops))
    (nodup_enumFrom 0 ops)]
  intro a
  obtain ⟨i, x⟩ := a
  constructor
  · intro hmem
    obtain ⟨p, hp⟩ := lookup_of_mem_entriesOfTree (WFtree_buildRoot ops) hmem
    obtain ⟨h1, h2, h3⟩ := lookupPath_buildRoot_some hp
    rw [mem_enumFrom]
    exact ⟨Nat.zero_le _, by simpa using h2⟩
  · intro hmem
    obtain ⟨h1, h2⟩ := (mem_enumFrom ops 0 i x).mp hmem
    simp only [Nat.sub_zero] at h2
    have hlast : lastEntryFor (enumFrom 0 ops) (splitDest x.dest) = some (i, x) := by
      rw [lastEntryFor_enumFrom]
      refine ⟨Nat.zero_le _, by simpa using h2, rfl, ?_⟩
      intro o2 ho2 hseg
      simp only [Nat.sub_zero] at ho2
      have hR := pairwise_getElem_drop ops i x hdd h2 o2 ho2
      exact hR (splitDest_injective hseg.symm)
    have hlook : (buildRoot ops).lookupPath (splitDest x.dest) = some (i, x) := by
      rw [lookupPath_buildRoot]
      exact hlast
    exact mem_entriesOfTree_of_lookup hlook

theorem mergeSort_entries (ops : List Operation) (l : List (Nat × Operation))
    (hperm : l.Perm (enumFrom 0 ops)) :
    l.mergeSort (fun a b => decide (a.1 ≤ b.1)) = enumFrom 0 ops := by
  have hsorted := @List.sorted_mergeSort (Nat × Operation)
    (fun a b => decide (a.1 ≤ b.1))
    (fun a b c h1 h2 => by simp only [decide_eq_true_eq] at h1 h2 ⊢; omega)
    (fun a b => by simpa using Nat.le_total a.1 b.1) l
  have hpermM : (l.mergeSort (fun a b => decide (a.1 ≤ b.1))).Perm (enumFrom 0 ops) :=
    (List.mergeSort_perm l _).trans hperm
  have hndenum : ((enumFrom 0 ops).map Prod.fst).Nodup :=
    ((List.pairwise_map).mpr (pairwise_fst_lt_enumFrom 0 ops)).imp
      (fun h heq => absurd (heq ▸ h) (lt_irrefl _))
  have hndfst : ((l.mergeSort (fun a b => decide (a.1 ≤ b.1))).map Prod.fst).Nodup :=
    (hpermM.map Prod.fst).symm.nodup hndenum
  have hne : (l.mergeSort (fun a b => decide (a.1 ≤ b.1))).Pairwise
      (fun a b => a.1 ≠ b.1) := List.pairwise_map.mp hndfst
  have hlt : (l.mergeSort (fun a b => decide (a.1 ≤ b.1))).Pairwise
      (fun a b => a.1 < b.1) := by
    have hand := hsorted.and hne
    exact hand.imp (fun h => lt_of_le_of_ne (by simpa using h.1) h.2)
  haveI : IsAntisymm (Nat × Operation) (fun a b => a.1 < b.1) :=
    ⟨fun a b h1 h2 => absurd (h1.trans h2) (lt_irrefl _)⟩
  exact List.eq_of_perm_of_sorted hpermM hlt (pairwise_fst_lt_enumFrom 0 ops)

/-! ## The claims -/

/-- C5: when lstat shows the destination exists (`destStats` is some) and the
pair is not a directory-onto-directory merge, then without `overwrite` the
operation fails with an error whose `code` is EEXIST and whose `path` is the
destination path, and the existing destination is left untouched (the outcome
carries no deletion); with `overwrite` the existing destination is removed
recursively (del on the destination path) and the copy proceeds. -/
theorem c5_eexist_on_conflict (destPath : String) (srcStats destStats : Stats)
    (overwrite : Bool) (hmerge : ¬(srcStats.isDir = true ∧ destStats.isDir = true)) :
    (overwrite = false →
      ensureDestinationIsWritable destPath srcStats (some destStats) overwrite =
        .failed (fsError "EEXIST" destPath) ∧
      (fsError "EEXIST" destPath).code = "EEXIST" ∧
      (fsError "EEXIST" destPath).path = destPath) ∧
    (overwrite = true →
      ensureDestinationIsWritable destPath srcStats (some destStats) overwrite =
        .proceedAfterDelete destPath) := by
  have hmergeB : (srcStats.isDir && destStats.isDir) = false := by
    cases hsd : srcStats.isDir <;> cases hdd : destStats.isDir <;> simp_all
  constructor
  · intro h
    subst h
    refine ⟨?_, rfl, rfl⟩
    simp [ensureDestinationIsWritable, hmergeB]
  · intro h
    subst h
    simp [ensureDestinationIsWritable, hmergeB]

/-- Witness for C5 at a concrete conflict: source file onto existing
destination file. -/
theorem c5_witness :
    (ensureDestinationIsWritable "/out/f" ⟨false, false⟩ (some ⟨false, false⟩) false =
        .failed (fsError "EEXIST" "/out/f") ∧
      (fsError "EEXIST" "/out/f").code = "EEXIST" ∧
      (fsError "EEXIST" "/out/f").path = "/out/f") ∧
    ensureDestinationIsWritable "/out/f" ⟨false, false⟩ (some ⟨false, false⟩) true =
      .proceedAfterDelete "/out/f" :=
  ⟨(c5_eexist_on_conflict "/out/f" ⟨false, false⟩ ⟨false, false⟩ false
      (by decide)).1 rfl,
   (c5_eexist_on_conflict "/out/f" ⟨false, false⟩ ⟨false, false⟩ true
      (by decide)).2 rfl⟩

/-- C8: for a symbolic-link source entry, copySymlink reads the target string
of the source and creates the destination symlink with exactly that string:
afterwards readlink on the destination yields the identical string readlink
yields on the source, byte for byte, never resolved or rewritten. -/
theorem c8_symlink_verbatim (fs : FileSystem) (srcPath destPath target : String)
    (hsrc : lookupFS fs srcPath = some (.symlinkTo target))
    (hdest : lookupFS fs destPath = none) :
    readlinkFS fs srcPath = .ok target ∧
    ∃ fs2, copySymlink fs srcPath destPath = .ok fs2 ∧
      readlinkFS fs2 destPath = .ok target := by
  have hread : readlinkFS fs srcPath = .ok target := by
    unfold readlinkFS
    rw [hsrc]
  refine ⟨hread, (destPath, .symlinkTo target) :: fs, ?_, ?_⟩
  · unfold copySymlink
    rw [hread]
    unfold symlinkFS
    rw [hdest]
    rfl
  · unfold readlinkFS lookupFS
    rw [if_pos rfl]

/-- Witness for C8: a relative target "./sibling" survives the copy as the
literal string "./sibling". -/
theorem c8_witness :
    readlinkFS [("a/lnk", .symlinkTo "./sibling")] "a/lnk" = .ok "./sibling" ∧
    ∃ fs2, copySymlink [("a/lnk", .symlinkTo "./sibling")] "a/lnk" "b/lnk" = .ok fs2 ∧
      readlinkFS fs2 "b/lnk" = .ok "./sibling" :=
  c8_symlink_verbatim [("a/lnk", .symlinkTo "./sibling")] "a/lnk" "b/lnk" "./sibling"
    (by decide) (by decide)

/-- C9: an entry-level failure is wrapped exactly once in the internal
CopyError carrier with the entry's src/dest metadata, passes through batch's
rejection unchanged, and the top-level catch emits the error event with the
unwrapped original error plus the metadata and rethrows exactly the original
error (same object, same message); no CopyError wrapper ever reaches the
public surface, for any thrown value. -/
theorem c9_unwrapped_original_error (b : BaseErr) (src dest : String) :
    (topLevelCatch (batchRejectPassThrough (copyWrapCatch src dest (.plain b)))).2 =
      .plain b ∧
    (topLevelCatch (batchRejectPassThrough (copyWrapCatch src dest (.plain b)))).1 =
      some (b, ⟨src, dest⟩) ∧
    (∀ e : JsThrown, ∃ b2 : BaseErr, (topLevelCatch e).2 = .plain b2) := by
  refine ⟨rfl, rfl, ?_⟩
  intro e
  cases e with
  | plain e2 => exact ⟨e2, rfl⟩
  | copyErr e2 d => exact ⟨e2, rfl⟩

theorem dotFilter_eq_true_iff (p : String) :
    dotFilter p = true ↔ ¬((basename p).data.head? = some '.') := by
  unfold dotFilter
  cases h : (basename p).data with
  | nil => simp
  | cons c tl => simp

/-- C6: the filter pipeline rejects an enumerated relative path exactly when
the dot rule applies (`options.dot` falsy and the basename starts with a
dot), the junk rule applies (`options.junk` falsy and the junk detector flags
the basename), or a supplied user filter evaluates false on the
slash-normalized relative path; in particular, on the source files
{a, .a, b}, default options accept exactly {a, b} and `dot: true` accepts all
three (for any junk detector that does not flag those names). -/
theorem c6_filter_rules (paths : List String) (p : String)
    (filter : Option (String → Bool)) (junkIs : String → Bool)
    (options : FilterOptions) :
    (p ∈ getFilteredPaths paths filter junkIs options ↔
      p ∈ paths ∧
        ¬((options.dot = false ∧ (basename p).data.head? = some '.') ∨
          (options.junk = false ∧ junkIs (basename p) = true) ∨
          (∃ f, filter = some f ∧ f (slashStr p) = false))) ∧
    (junkIs "a" = false → junkIs ".a" = false → junkIs "b" = false →
      getFilteredPaths ["a", ".a", "b"] none junkIs ⟨false, false⟩ = ["a", "b"] ∧
      getFilteredPaths ["a", ".a", "b"] none junkIs ⟨true, false⟩ =
        ["a", ".a", "b"]) := by
  constructor
  · obtain ⟨dOpt, jOpt⟩ := options
    cases dOpt <;> cases jOpt <;> cases filter <;>
      simp [getFilteredPaths, List.mem_filter, junkFilter, dotFilter_eq_true_iff] <;>
      tauto
  · intro h1 h2 h3
    have d1 : dotFilter "a" = true := by decide
    have d2 : dotFilter ".a" = false := by decide
    have d3 : dotFilter "b" = true := by decide
    have e1 : basename "a" = "a" := by decide
    have e2 : basename ".a" = ".a" := by decide
    have e3 : basename "b" = "b" := by decide
    constructor
    · simp [getFilteredPaths, List.filter, junkFilter, d1, d2, d3, e1, e2, e3,
        h1, h2, h3]
    · simp [getFilteredPaths, List.filter, junkFilter, e1, e2, e3, h1, h2, h3]

/-- Witness for C6 with a concrete junk detector (the two junk names the spec
names as examples). -/
theorem c6_witness :
    getFilteredPaths ["a", ".a", "b"] none
        (fun s => s == ".DS_Store" || s == "Thumbs.db") ⟨false, false⟩ =
      ["a", "b"] ∧
    getFilteredPaths ["a", ".a", "b"] none
        (fun s => s == ".DS_Store" || s == "Thumbs.db") ⟨true, false⟩ =
      ["a", ".a", "b"] :=
  (c6_filter_rules ["a", ".a", "b"] "a" none
    (fun s => s == ".DS_Store" || s == "Thumbs.db") ⟨false, false⟩).2
    (by decide) (by decide) (by decide)

theorem maximatch_run_from (subject : String) :
    ∀ (elements : List FilterElement) (acc : List String),
      (∀ x ∈ acc, x = subject) →
      decide (0 < (elements.foldl
        (fun acc e =>
          match e with
          | .pat m => if m subject then acc ++ [subject] else acc
          | .negPat m => if m subject then acc.filter (fun x => x ≠ subject) else acc)
        acc).length) =
      elements.foldl
        (fun b e =>
          match e with
          | .pat m => b || m subject
          | .negPat m => if m subject then false else b)
        (decide (0 < acc.length)) := by
  intro elements
  induction elements with
  | nil => intro acc hacc; rfl
  | cons e tl ih =>
    intro acc hacc
    cases e with
    | pat m =>
      rw [List.foldl_cons, List.foldl_cons]
      dsimp only
      by_cases hm : m subject = true
      · rw [if_pos hm, hm, Bool.or_true]
        have hacc2 : ∀ x ∈ acc ++ [subject], x = subject := by
          intro x hx
          rcases List.mem_append.mp hx with h1 | h2
          · exact hacc x h1
          · exact List.mem_singleton.mp h2
        have hlen : decide (0 < (acc ++ [subject]).length) = true := by
          simp
        rw [ih (acc ++ [subject]) hacc2, hlen]
      · have hm2 : m subject = false := Bool.eq_false_iff.mpr hm
        rw [if_neg hm, hm2, Bool.or_false]
        exact ih acc hacc
    | negPat m =>
      rw [List.foldl_cons, List.foldl_cons]
      dsimp only
      by_cases hm : m subject = true
      · rw [if_pos hm, if_pos hm]
        have hnil : acc.filter (fun x => x ≠ subject) = [] := by
          rw [List.filter_eq_nil]
          intro a ha
          simp [hacc a ha]
        rw [hnil, ih [] (by simp)]
        rfl
      · rw [if_neg hm, if_neg hm]
        exact ih acc hacc

/-- C7 fails on the code: with the filter array of the repository's own test
"should combine multiple filters from arrays" the path "a" passes only the
final predicate element, so the claimed logical-AND combination rejects it;
yet the maximatch combination accepts it and the filter stage keeps it (the
repository's test expects "a" to be copied). -/
theorem c7_counterexample :
    allElementsPass c7Elements "a" = false ∧
    maximatchAccept c7Elements "a" = true ∧
    "a" ∈ getFilteredPaths ["a"] (some (maximatchAccept c7Elements))
        (fun _ => false) ⟨true, true⟩ := by
  refine ⟨by decide, by decide, by decide⟩

/-- C7 (amended): for every relative path and every user filter given as an
array of glob/regular-expression/predicate elements, the filter stage accepts
the path iff the union fold over the elements accepts it — elements are
combined as a union in which a matching positive element marks the
slash-normalized path accepted and a later matching `!`-negation clears the
acceptance, not as a logical AND over all elements. -/
theorem c7_union_semantics (elements : List FilterElement) (p : String)
    (paths : List String) (junkIs : String → Bool) :
    maximatchAccept elements p = unionFold elements p ∧
    (p ∈ getFilteredPaths paths (some (maximatchAccept elements)) junkIs
        ⟨true, true⟩ ↔
      p ∈ paths ∧ unionFold elements (slashStr p) = true) := by
  have hmain : ∀ q, maximatchAccept elements q = unionFold elements q := by
    intro q
    unfold maximatchAccept maximatchRun unionFold
    have h0 := maximatch_run_from q elements [] (by simp)
    simpa using h0
  refine ⟨hmain p, ?_⟩
  simp [getFilteredPaths, List.mem_filter, hmain (slashStr p)]

/-- C10: in the tree createOperationTree builds, each destination path stores
at most one operation: an index/operation pair appears among the built tasks
iff it is the last operation in list order with its destination path (earlier
colliding operations are overwritten by updateLeaf and never appear), and any
two stored pairs with the same destination are the same pair. -/
theorem c10_last_write_wins (ops : List Operation) (i : Nat) (o : Operation) :
    ((i, o) ∈ (flatForest (createOperationTree ops)).map OpTask.entry ↔
      (ops[i]? = some o ∧ ∀ o2 ∈ ops.drop (i + 1), o2.dest ≠ o.dest)) ∧
    (∀ j o2, (i, o) ∈ (flatForest (createOperationTree ops)).map OpTask.entry →
      (j, o2) ∈ (flatForest (createOperationTree ops)).map OpTask.entry →
      o2.dest = o.dest → j = i ∧ o2 = o) := by
  rw [mapEntry_flat_createOperationTree]
  constructor
  · constructor
    · intro hmem
      obtain ⟨p, hp⟩ := lookup_of_mem_entriesOfTree (WFtree_buildRoot ops) hmem
      obtain ⟨h1, h2, h3⟩ := lookupPath_buildRoot_some hp
      refine ⟨h2, ?_⟩
      intro o2 ho2 hdd
      exact h3 o2 ho2 (by rw [hdd, h1])
    · rintro ⟨h2, h3⟩
      have hlast : lastEntryFor (enumFrom 0 ops) (splitDest o.dest) = some (i, o) := by
        rw [lastEntryFor_enumFrom]
        refine ⟨Nat.zero_le _, by simpa using h2, rfl, ?_⟩
        intro o2 ho2 hseg
        simp only [Nat.sub_zero] at ho2
        exact h3 o2 ho2 (splitDest_injective hseg)
      exact mem_entriesOfTree_of_lookup (by rw [lookupPath_buildRoot]; exact hlast)
  · intro j o2 hmem1 hmem2 hdd
    obtain ⟨p1, hp1⟩ := lookup_of_mem_entriesOfTree (WFtree_buildRoot ops) hmem1
    obtain ⟨p2, hp2⟩ := lookup_of_mem_entriesOfTree (WFtree_buildRoot ops) hmem2
    have e1 := (lookupPath_buildRoot_some hp1).1
    have e2 := (lookupPath_buildRoot_some hp2).1
    have hpp : p2 = p1 := by rw [← e1, ← e2, hdd]
    rw [hpp] at hp2
    have h6 := Option.some.inj (hp1.symm.trans hp2)
    exact ⟨(congrArg Prod.fst h6).symm, (congrArg Prod.snd h6).symm⟩

/-- C1: for every built operation tree and every execution of the scheduler,
a task's children become eligible to start only after the task's own copy
completed successfully (every released task is a top-level tree task or the
child of a completed task); consequently, for any operation A of the tree and
any operation B of the tree whose destination path is nested under A's
destination path (A's destination segments are a strict initial run of B's),
A's copy never runs concurrently with B and always completes before B is
dispatched: whenever B has been released, A is already completed and no
longer in flight. -/
theorem c1_parent_before_children (ops : List Operation) (enabled : Bool)
    (c : Nat) (s : BatchState)
    (hr : BatchReachable (batchInit (createOperationTree ops) enabled c) s) :
    (∀ t, Released s t →
        t ∈ createOperationTree ops ∨ ∃ p, p ∈ s.completed ∧ t ∈ p.children) ∧
    (∀ A B, A ∈ flatForest (createOperationTree ops) →
        B ∈ flatForest (createOperationTree ops) →
        strictPre A.segs B.segs → Released s B →
        A ∈ s.completed ∧ A ∉ s.active) := by
  have hInv := schedInv_reachable hr
  refine ⟨hInv.2.2.2.1, ?_⟩
  intro A B hA hB hs hrel
  have hAc := hInv.2.2.2.2 B hrel A hA hs
  exact ⟨hAc, completed_not_active hInv hAc⟩

/-- Witness for C1: copying a directory and a file nested under it; after the
directory's task completes, the nested task is in flight and the directory
task is completed and no longer active. -/
theorem c1_witness :
    OpTask.mk (0, ⟨"s", "d"⟩) [OpTask.mk (1, ⟨"s/x", "d/x"⟩) []] ∈
      (completeWorker (batchInit (createOperationTree
        [⟨"s", "d"⟩, ⟨"s/x", "d/x"⟩]) true 1) 0).completed ∧
    OpTask.mk (0, ⟨"s", "d"⟩) [OpTask.mk (1, ⟨"s/x", "d/x"⟩) []] ∉
      (completeWorker (batchInit (createOperationTree
        [⟨"s", "d"⟩, ⟨"s/x", "d/x"⟩]) true 1) 0).active :=
  (c1_parent_before_children [⟨"s", "d"⟩, ⟨"s/x", "d/x"⟩] true 1 _
    (BatchReachable.step BatchReachable.refl
      (BatchStep.complete _ 0 (by
        simp +decide [batchInit, createOperationTree, buildRoot, enumFrom,
          MTree.insertPath, insertChild, splitDest, splitSegs, constructTree,
          constructForest])))).2
    (OpTask.mk (0, ⟨"s", "d"⟩) [OpTask.mk (1, ⟨"s/x", "d/x"⟩) []])
    (OpTask.mk (1, ⟨"s/x", "d/x"⟩) [])
    (by
      simp +decide [createOperationTree, buildRoot, enumFrom, MTree.insertPath,
        insertChild, splitDest, splitSegs, constructTree, constructForest,
        flatForest, flatTask])
    (by
      simp +decide [createOperationTree, buildRoot, enumFrom, MTree.insertPath,
        insertChild, splitDest, splitSegs, constructTree, constructForest,
        flatForest, flatTask])
    (by decide)
    (by
      refine Or.inr (Or.inl ?_)
      simp +decide [completeWorker, OpTask.children, OpTask.entry, OpTask.index,
          OpTask.operation, batchInit, createOperationTree, buildRoot,
        enumFrom, MTree.insertPath, insertChild, splitDest, splitSegs,
        constructTree, constructForest])

/-- C2: for every successful run of the scheduler with results enabled whose
filtered operations (in depth-first source-enumeration order) have pairwise
distinct destinations, the result list delivered by the post-processing sort
equals the operation list in its original enumeration order — whatever order
the concurrent workers finished in. -/
theorem c2_results_in_enumeration_order (ops : List Operation) (c : Nat)
    (s : BatchState)
    (hdd : ops.Pairwise (fun a b => a.dest ≠ b.dest))
    (hr : BatchReachable (batchInit (createOperationTree ops) true c) s)
    (hres : Resolved s) :
    finalizeResults s.resultsAcc = .ok ops := by
  obtain ⟨hI, hII, hIII, hIV, hV⟩ := schedInv_reachable hr
  obtain ⟨hrem, hzero⟩ := hres
  rw [hzero] at hI
  have hact : s.active = [] := List.length_eq_zero.mp (by omega)
  have hfail : s.failedTasks = [] := List.length_eq_zero.mp (by omega)
  have hcomp : s.completed.Perm (flatForest (createOperationTree ops)) := by
    rw [hact, hrem, hfail, flatForest_nil] at hIII
    simpa using hIII.symm
  have hmapperm : (s.completed.map
      (fun t : OpTask => (t.index, t.operation))).Perm (enumFrom 0 ops) := by
    have hp1 := hcomp.map OpTask.entry
    rw [mapEntry_flat_createOperationTree] at hp1
    exact hp1.trans (entries_perm_enum hdd)
  rw [hII]
  rw [if_pos rfl]
  show Except.ok (((s.completed.map (fun t : OpTask => (t.index, t.operation))).mergeSort
    (fun a b => decide (a.1 ≤ b.1))).map Prod.snd) = Except.ok ops
  rw [mergeSort_entries ops _ hmapperm, map_snd_enumFrom]

/-- Witness for C2: a two-entry tree run to completion; the delivered list is
the operations in enumeration order. -/
theorem c2_witness :
    finalizeResults (completeWorker (completeWorker (batchInit
        (createOperationTree [⟨"s", "d"⟩, ⟨"s/x", "d/x"⟩]) true 255) 0) 0).resultsAcc =
      .ok [⟨"s", "d"⟩, ⟨"s/x", "d/x"⟩] :=
  c2_results_in_enumeration_order [⟨"s", "d"⟩, ⟨"s/x", "d/x"⟩] 255 _
    (by decide)
    (BatchReachable.step (BatchReachable.step BatchReachable.refl
      (BatchStep.complete _ 0 (by
        simp +decide [batchInit, createOperationTree, buildRoot, enumFrom,
          MTree.insertPath, insertChild, splitDest, splitSegs, constructTree,
          constructForest])))
      (BatchStep.complete _ 0 (by
        simp +decide [completeWorker, OpTask.children, OpTask.entry, OpTask.index,
          OpTask.operation, batchInit, createOperationTree, buildRoot,
          enumFrom, MTree.insertPath, insertChild, splitDest, splitSegs,
          constructTree, constructForest])))
    (by
      refine ⟨?_, ?_⟩ <;>
        simp +decide [completeWorker, OpTask.children, OpTask.entry, OpTask.index,
          OpTask.operation, batchInit, createOperationTree, buildRoot,
          enumFrom, MTree.insertPath, insertChild, splitDest, splitSegs,
          constructTree, constructForest])

/-- C3 (code bug): the seeding loop of batch (line 181) runs
`i = 0 .. Math.min(inputs.length - 1, options.concurrency)` inclusive, hence
starts `min(inputs.length, concurrency + 1)` workers: with two top-level
tasks and concurrency cap 1, the activeWorkers counter is 2 at a state of the
execution (right after seeding), exceeding the cap. -/
theorem c3_cap_exceeded_at_seeding :
    (batchInit (createOperationTree [⟨"s1", "a"⟩, ⟨"s2", "b"⟩]) true 1).activeWorkers
      = 2 ∧
    BatchReachable
      (batchInit (createOperationTree [⟨"s1", "a"⟩, ⟨"s2", "b"⟩]) true 1)
      (batchInit (createOperationTree [⟨"s1", "a"⟩, ⟨"s2", "b"⟩]) true 1) ∧
    1 < 2 :=
  ⟨by
    simp +decide [batchInit, createOperationTree, buildRoot, enumFrom,
      MTree.insertPath, insertChild, splitDest, splitSegs, constructTree,
      constructForest],
   BatchReachable.refl, by decide⟩

/-- C4 (code bug): with `results: false` the scheduler accumulates nothing and
the single-entry run resolves (queue empty, no workers in flight) with the
results value undefined; the result post-processing of module.exports
(line 89) then accesses `.sort` on undefined and raises a TypeError, so the
invocation rejects instead of delivering undefined. -/
theorem c4_results_false_type_error :
    (completeWorker (batchInit (createOperationTree [⟨"s", "d"⟩]) false 255)
        0).resultsAcc = none ∧
    Resolved (completeWorker (batchInit (createOperationTree [⟨"s", "d"⟩]) false 255)
        0) ∧
    finalizeResults (completeWorker (batchInit (createOperationTree [⟨"s", "d"⟩])
        false 255) 0).resultsAcc = .error .typeError := by
  refine ⟨?_, ⟨?_, ?_⟩, ?_⟩ <;>
    simp +decide [completeWorker, OpTask.children, OpTask.entry, OpTask.index,
          OpTask.operation, batchInit, createOperationTree, buildRoot,
      enumFrom, MTree.insertPath, insertChild, splitDest, splitSegs,
      constructTree, constructForest, Resolved, finalizeResults]
